import Mathlib

/-!
Verification of the weekly study-schedule generator (`weekly_ml.py`) and the
daily-recommendation formula (`ml.py`) of the AI-Driven Study Planner.

The Python code is shallowly embedded: dictionaries with fixed keys become
structures, Python floats become rationals (the arithmetic performed here is
exact on small values), fallible code returns `Except`/`Option`, and the
dict-based weekly schedule becomes an association list keyed by the seven
weekday names.  A `KeyError`/`ValueError` escaping `generate_schedule` is
modelled by the `GenResult.fault` constructor, the returned
`{"error": ...}` dictionary by `GenResult.err`.
-/

deriving instance DecidableEq for Except

namespace StudyPlanner

/-- Value of a numeric field of an input dictionary: the key may be absent,
present but such that `float(...)` raises (`junk`), or parse to a number. -/
inductive NumField where
  | absent : NumField
  | junk : NumField
  | val (q : ℚ) : NumField
deriving DecidableEq, Repr

/-- Embedding of the `settings` dictionary consumed by `generate_schedule`:
`daily_study_hours`, `start_time` (raw string, possibly missing) and
`study_days` (insertion-ordered mapping from day identifier to a flag). -/
structure Settings where
  daily_study_hours : NumField
  start_time : Option String
  study_days : List (String × Bool)
deriving DecidableEq, Repr

/-- Embedding of one element of the `subjects` list: `subject_name`,
`total_hours` and `difficulty`, each possibly missing. -/
structure SubjectInput where
  subject_name : Option String
  total_hours : NumField
  difficulty : Option String
deriving DecidableEq, Repr

/-- Decimal digit character (`0`--`9`); inputs `10` and above are clamped to
`9`, a case never reached on digits of a number. -/
def digitChar : ℕ → Char
  | 0 => '0'
  | 1 => '1'
  | 2 => '2'
  | 3 => '3'
  | 4 => '4'
  | 5 => '5'
  | 6 => '6'
  | 7 => '7'
  | 8 => '8'
  | _ => '9'

/-- Fuel-indexed little-endian decimal digit expansion; the fuel only
bounds the recursion depth so that the definition is structural and
reduces inside the kernel. -/
def natDigitsRevF : ℕ → ℕ → List ℕ
  | 0, n => [n]
  | fuel + 1, n => if n < 10 then [n] else n % 10 :: natDigitsRevF fuel (n / 10)

/-- Little-endian list of decimal digits of a natural number. -/
def natDigitsRev (n : ℕ) : List ℕ :=
  natDigitsRevF n n

/-- Decimal rendering of a natural number, as Python `str` produces it. -/
def natStr (n : ℕ) : String :=
  ⟨((natDigitsRev n).reverse).map digitChar⟩

/-- Decimal rendering of an integer, as Python `str` produces it. -/
def intStr (z : ℤ) : String :=
  if z < 0 then "-" ++ natStr z.natAbs else natStr z.toNat

/-- Numeric value of a decimal digit character, `none` on other characters. -/
def digitVal? (c : Char) : Option ℕ :=
  if 48 ≤ c.toNat ∧ c.toNat ≤ 57 then some (c.toNat - 48) else none

/-- Accumulating decimal reader over a character list; fails on the first
non-digit character. -/
def parseDigitsAux : List Char → ℕ → Option ℕ
  | [], acc => some acc
  | c :: cs, acc =>
    match digitVal? c with
    | some d => parseDigitsAux cs (acc * 10 + d)
    | none => none

/-- Decimal integer reader over a character list with an optional leading
sign; `none` models a `ValueError`. -/
def pyParseIntList? : List Char → Option ℤ
  | [] => none
  | c :: cs =>
    if c = '-' then
      match cs with
      | [] => none
      | _ :: _ => (parseDigitsAux cs 0).map (fun n => -(n : ℤ))
    else if c = '+' then
      match cs with
      | [] => none
      | _ :: _ => (parseDigitsAux cs 0).map (fun n => (n : ℤ))
    else (parseDigitsAux (c :: cs) 0).map (fun n => (n : ℤ))

/-- Embedding of Python `int(s)` on decimal strings with an optional sign:
`none` models the `ValueError` raised on malformed input. -/
def pyParseInt? (s : String) : Option ℤ :=
  pyParseIntList? s.data

/-- Helper for `pySplitColon`, accumulating the current chunk in reverse. -/
def splitColonAux : List Char → List Char → List String
  | [], acc => [⟨acc.reverse⟩]
  | c :: cs, acc =>
    if c = ':' then (⟨acc.reverse⟩ : String) :: splitColonAux cs []
    else splitColonAux cs (c :: acc)

/-- Embedding of Python `s.split(':')`. -/
def pySplitColon (s : String) : List String :=
  splitColonAux s.data []

/-- Embedding of `map(int, s.split(':'))` unpacked into exactly two values,
as `generate_schedule` parses `start_time`; `none` models the `ValueError`. -/
def parseStartTime? (s : String) : Option (ℤ × ℤ) :=
  match pySplitColon s with
  | [a, b] =>
    match pyParseInt? a, pyParseInt? b with
    | some x, some y => some (x, y)
    | _, _ => none
  | _ => none

/-- Floor of a rational, computed by floor division of numerator by
denominator so that it reduces inside the kernel. -/
def ratFloor (q : ℚ) : ℤ :=
  Int.fdiv q.num q.den

/-- Embedding of Python `round` on a rational: round half to even.  The
fractional part `q - floor q` equals `r / den` with
`r = num - den * floor q`, so comparing it with one half is comparing
`2 * r` with `den`, in integer arithmetic throughout. -/
def pyRound (q : ℚ) : ℤ :=
  let f := ratFloor q
  let r := q.num - q.den * f
  if 2 * r < (q.den : ℤ) then f
  else if (q.den : ℤ) < 2 * r then f + 1
  else if f % 2 = 0 then f else f + 1

/-- Embedding of the format specifier `f"{v:02d}"`: pad a one-digit
non-negative number with a leading zero. -/
def pad2 (z : ℤ) : String :=
  if 0 ≤ z ∧ z < 10 then "0" ++ intStr z else intStr z

/-- Embedding of the local helper `format_time(h, m)` of `generate_schedule`. -/
def format_time (h m : ℤ) : String :=
  pad2 h ++ ":" ++ pad2 m

/-- Embedding of Python `str(float(n))` for an integral value `n`. -/
def pyFloatStr (z : ℤ) : String :=
  intStr z ++ ".0"

/-- ASCII lowercasing of one character, as Python `str.lower` acts on the
character range used by day identifiers. -/
def pyLowerChar (c : Char) : Char :=
  if 'A' ≤ c ∧ c ≤ 'Z' then Char.ofNat (c.toNat + 32) else c

/-- Embedding of Python `s.lower()`. -/
def pyLower (s : String) : String :=
  ⟨s.data.map pyLowerChar⟩

/-- Whitespace test used by Python `str.strip()`. -/
def isPyWs (c : Char) : Bool :=
  c = ' ' ∨ c = '\t' ∨ c = '\n' ∨ c = '\r'

/-- Embedding of Python `s.strip()`: drop whitespace from both ends. -/
def pyStrip (s : String) : String :=
  ⟨(((s.data.dropWhile isPyWs).reverse.dropWhile isPyWs).reverse)⟩

/-- Embedding of Python `s.startswith(pre)`. -/
def pyStartsWith (s pre : String) : Bool :=
  pre.data.isPrefixOf s.data

/-- Result of the input-sanitizing step (step 1) of `generate_schedule`. -/
structure Config where
  cap : ℚ
  startHour : ℤ
  startMinute : ℤ
  studyDays : List String
deriving DecidableEq, Repr

/-- Step 1 of `generate_schedule`: read `daily_study_hours` (default 8),
parse `start_time` (default "09:00") and collect the active `study_days`;
if any of the three raises `ValueError`/`TypeError`, all fall back to
capacity 8, 09:00 and Monday--Friday short names. -/
def resolveConfig (s : Settings) : Config :=
  let capE : Option ℚ :=
    match s.daily_study_hours with
    | .absent => some 8
    | .junk => none
    | .val q => some q
  let timeE : Option (ℤ × ℤ) := parseStartTime? (s.start_time.getD "09:00")
  match capE, timeE with
  | some c, some (h, m) => ⟨c, h, m, (s.study_days.filter (fun p => p.2)).map (fun p => p.1)⟩
  | _, _ => ⟨8, 9, 0, ["mon", "tue", "wed", "thu", "fri"]⟩

/-- The fixed key list of the `schedule` dictionary built in step 3 of
`generate_schedule` (insertion order of its keys). -/
def weekdayNames : List String :=
  ["monday", "tuesday", "wednesday", "thursday", "friday", "saturday", "sunday"]

/-- Embedding of the `difficulty_order` dictionary lookup with default 2. -/
def difficultyPriority (d : String) : ℤ :=
  if d = "Hard" then 3 else if d = "Medium" then 2 else if d = "Easy" then 1 else 2

/-- One 1-hour study block of step 2 of `generate_schedule`. -/
structure Block where
  subject : String
  difficulty : String
  priority : ℤ
deriving DecidableEq, Repr

/-- A scheduled session: the block dictionary after `start_time`/`end_time`
were attached during placement, and `duration_hs` during consolidation. -/
structure Session where
  subject : String
  difficulty : String
  priority : ℤ
  start_time : String
  end_time : String
  duration_hs : Option String
deriving DecidableEq, Repr

/-- Rounded hour count of one subject: `int(round(float(total_hours)))` with
default 1 on a missing key; `none` models the `ValueError`/`TypeError`
that makes the loop skip the subject. -/
def subjectHours? (s : SubjectInput) : Option ℤ :=
  match s.total_hours with
  | .absent => some 1
  | .junk => none
  | .val q => some (pyRound q)

/-- Effective subject name: `subject.get("subject_name", "Unnamed")`. -/
def effName (s : SubjectInput) : String :=
  s.subject_name.getD "Unnamed"

/-- Effective difficulty string: `subject.get("difficulty", "Medium")`. -/
def effDifficulty (s : SubjectInput) : String :=
  s.difficulty.getD "Medium"

/-- Unit blocks contributed by one subject (step 2 of `generate_schedule`):
`round(total_hours)` copies, none if the hours are unparsable, none for a
non-positive rounded hour count (`range` of a non-positive int is empty). -/
def blocksOf (s : SubjectInput) : List Block :=
  match subjectHours? s with
  | none => []
  | some h => List.replicate h.toNat ⟨effName s, effDifficulty s, difficultyPriority (effDifficulty s)⟩

/-- The full study-block list of a run, in subject order. -/
def mkBlocks (subjects : List SubjectInput) : List Block :=
  (subjects.map blocksOf).flatten

/-- Relation ordering blocks by descending priority; sorting stably by it
is what `study_blocks.sort(key=..., reverse=True)` does. -/
def blockGE (a b : Block) : Prop :=
  b.priority ≤ a.priority

instance : DecidableRel blockGE := fun a b => inferInstanceAs (Decidable (b.priority ≤ a.priority))

/-- Stable descending-priority sort of the block list. -/
def sortBlocks (l : List Block) : List Block :=
  List.insertionSort blockGE l

/-- Strict lexicographic comparison of character lists by code point, the
order Python uses to compare strings. -/
def charListLt : List Char → List Char → Bool
  | [], [] => false
  | [], _ :: _ => true
  | _ :: _, [] => false
  | c :: cs, d :: ds =>
    if c.toNat < d.toNat then true
    else if d.toNat < c.toNat then false
    else charListLt cs ds

/-- Embedding of Python `a < b` on strings. -/
def pyStrLt (a b : String) : Bool :=
  charListLt a.data b.data

/-- Relation ordering sessions by start-time string (`a` not after `b`);
the defensive `sessions.sort(key=lambda x: x['start_time'])` sorts stably
by it. -/
def startLE (a b : Session) : Prop :=
  pyStrLt b.start_time a.start_time = false

instance : DecidableRel startLE := fun a b => inferInstanceAs (Decidable (_ = false))

/-- Stable sort of a day's sessions by start time. -/
def sortByStart (l : List Session) : List Session :=
  List.insertionSort startLE l

/-- Mutable state of the distribution loop (step 3): the day cursor, the
`daily_hours_spent` counters and the `schedule` dict contents. -/
structure PState where
  idx : ℕ
  spent : String → ℕ
  sched : String → List Session

/-- Result of one inner scan of the distribution loop. -/
structure ScanResult where
  idx : ℕ
  spent : String → ℕ
  sched : String → List Session
  placed : Bool

/-- Inner scan of step 3: try up to `fuel = len(day_cycle)` days starting at
the cursor; on the first day with spare capacity attach times to the block,
append it to `schedule[day]` (a `KeyError` escapes if the day is not one of
the seven dictionary keys) and bump `daily_hours_spent[day]`. -/
def placeLoop (cap : ℚ) (sh sm : ℤ) (cycle : List String) (b : Block) :
    ℕ → ℕ → (String → ℕ) → (String → List Session) → Except String ScanResult
  | 0, idx, spent, sched => .ok ⟨idx, spent, sched, false⟩
  | fuel + 1, idx, spent, sched =>
    let d := cycle.getD idx ""
    if (spent d : ℚ) < cap then
      if d ∈ weekdayNames then
        let h : ℤ := sh + (spent d : ℤ)
        let sess : Session := ⟨b.subject, b.difficulty, b.priority, format_time h sm, format_time (h + 1) sm, none⟩
        .ok ⟨idx, fun x => if x = d then spent x + 1 else spent x,
             fun x => if x = d then sched x ++ [sess] else sched x, true⟩
      else .error ("KeyError: " ++ d)
    else placeLoop cap sh sm cycle b fuel ((idx + 1) % cycle.length) spent sched

/-- Processing of one block in step 3: scan all cycle days once, then advance
the cursor to the next day regardless of the outcome. -/
def placeBlock (cap : ℚ) (sh sm : ℤ) (cycle : List String) (st : PState) (b : Block) :
    Except String PState :=
  match placeLoop cap sh sm cycle b cycle.length st.idx st.spent st.sched with
  | .error e => .error e
  | .ok r => .ok ⟨(r.idx + 1) % cycle.length, r.spent, r.sched⟩

/-- The distribution loop of step 3 over the whole block list. -/
def placeFold (cap : ℚ) (sh sm : ℤ) (cycle : List String) :
    PState → List Block → Except String PState
  | st, [] => .ok st
  | st, b :: bs =>
    match placeBlock cap sh sm cycle st b with
    | .error e => .error e
    | .ok st₂ => placeFold cap sh sm cycle st₂ bs

/-- Hour field of a time string: `int(t.split(':')[0])`. -/
def parseHour? (t : String) : Option ℤ :=
  pyParseInt? ((pySplitColon t).headD "")

/-- Finalisation of a consolidated session: compute `duration_hs` from the
hour fields of its boundary times; `none` models the `ValueError` raised on
an unparsable time string. -/
def finalizeSession? (s : Session) : Option Session :=
  match parseHour? s.start_time, parseHour? s.end_time with
  | some a, some b => some { s with duration_hs := some (pyFloatStr (b - a) ++ "h") }
  | _, _ => none

/-- Merge condition of step 4: same subject, same difficulty, and the next
session starts exactly where the current one ends. -/
def mergeCond (cur nxt : Session) : Prop :=
  nxt.subject = cur.subject ∧ nxt.difficulty = cur.difficulty ∧ nxt.start_time = cur.end_time

instance : ∀ cur nxt, Decidable (mergeCond cur nxt) := fun _ _ => inferInstanceAs (Decidable (_ ∧ _ ∧ _))

/-- Merge loop of step 4 over the sorted tail, carrying the current session. -/
def consolidateLoop : Session → List Session → Except String (List Session)
  | cur, [] =>
    match finalizeSession? cur with
    | some c => .ok [c]
    | none => .error "ValueError: invalid literal for int"
  | cur, nxt :: rest =>
    if mergeCond cur nxt then consolidateLoop { cur with end_time := nxt.end_time } rest
    else
      match finalizeSession? cur with
      | some c => (consolidateLoop nxt rest).map (fun out => c :: out)
      | none => .error "ValueError: invalid literal for int"

/-- Step 4 for one day: sort the sessions by start time, then merge
consecutive compatible sessions and attach durations. -/
def consolidateDay (sessions : List Session) : Except String (List Session) :=
  match sortByStart sessions with
  | [] => .ok []
  | first :: rest => consolidateLoop first rest

/-- Step 4 over the whole schedule, preserving the day order of the dict. -/
def consolidateAll : List (String × List Session) → Except String (List (String × List Session))
  | [] => .ok []
  | (d, sessions) :: rest =>
    match consolidateDay sessions with
    | .error e => .error e
    | .ok c =>
      match consolidateAll rest with
      | .error e => .error e
      | .ok r => .ok ((d, c) :: r)

/-- Overall outcome of `generate_schedule`: the structured
`{"error": ...}` value, an uncaught exception, or the final schedule as an
ordered weekday-to-sessions map. -/
inductive GenResult where
  | err (msg : String) : GenResult
  | fault (msg : String) : GenResult
  | ok (sched : List (String × List Session)) : GenResult
deriving DecidableEq, Repr

/-- The `day_cycle` list of step 3: active days, lowercased. -/
def day_cycle (s : Settings) : List String :=
  (resolveConfig s).studyDays.map pyLower

/-- Embedding of `generate_schedule(settings, subjects)` of `weekly_ml.py`. -/
def generate_schedule (settings : Settings) (subjects : List SubjectInput) : GenResult :=
  if (resolveConfig settings).studyDays = [] then .err "No study days selected."
  else
    match placeFold (resolveConfig settings).cap (resolveConfig settings).startHour
        (resolveConfig settings).startMinute (day_cycle settings)
        ⟨0, fun _ => 0, fun _ => []⟩ (sortBlocks (mkBlocks subjects)) with
    | .error e => .fault e
    | .ok st =>
      match consolidateAll (weekdayNames.map (fun d => (d, st.sched d))) with
      | .error e => .fault e
      | .ok final => .ok final

/-- Hour span of a session as recomputed by step 4 from its time strings. -/
def sessHours (s : Session) : ℤ :=
  (parseHour? s.end_time).getD 0 - (parseHour? s.start_time).getD 0

/-- Total hour span of a list of sessions. -/
def listHours (l : List Session) : ℤ :=
  (l.map sessHours).sum

/-- Total hour span of the sessions of a given subject in a list. -/
def subjHours (n : String) (l : List Session) : ℤ :=
  listHours (l.filter (fun s => s.subject = n))

/-- Total hour span attributed to a subject name over a whole schedule. -/
def totalSubjHours (n : String) (m : List (String × List Session)) : ℤ :=
  (m.map (fun p => subjHours n p.2)).sum

/-- Total rounded demand of the subjects bearing a given effective name. -/
def demandByName (n : String) (subjects : List SubjectInput) : ℤ :=
  ((subjects.filter (fun s => effName s = n)).filterMap subjectHours?).sum

/-- Total rounded demand over all (parsable) subjects. -/
def totalDemand (subjects : List SubjectInput) : ℤ :=
  (subjects.filterMap subjectHours?).sum

/-- Number of distinct active days of a run. -/
def numActiveDays (s : Settings) : ℕ :=
  (day_cycle s).dedup.length

/-- Ceiling of the daily capacity, clamped below by zero: the largest number
of one-hour blocks a single day can receive. -/
def capBound (cap : ℚ) : ℤ :=
  max 0 ⌈cap⌉

/-- Embedding of `_difficulty_normalize` of `ml.py`: missing or empty input
falls back to "Medium", otherwise the stripped lowercased string is matched
on its first letter. -/
def difficultyNormalize (diff : Option String) : String :=
  match diff with
  | none => "Medium"
  | some d₀ =>
    if d₀ = "" then "Medium"
    else
      if pyStartsWith (pyLower (pyStrip d₀)) "e" then "Easy"
      else if pyStartsWith (pyLower (pyStrip d₀)) "h" then "Hard"
      else "Medium"

/-- Embedding of the `bonus_for_diff` dictionary lookup with default 1. -/
def bonus_for_diff (d : String) : ℚ :=
  if d = "Easy" then 0 else if d = "Medium" then 1 else if d = "Hard" then 2 else 1

/-- Embedding of the numeric pipeline of `recommend` in `ml.py`, producing
the `predicted_hours` field (the accompanying prose strings are pure
formatting of these same values and are not modelled). -/
def recommend_predicted (hours₀ : ℚ) (difficulty : Option String) (days_remaining : ℤ) : ℚ :=
  let diff := difficultyNormalize difficulty
  let hours : ℚ := if hours₀ ≤ 0 then 1 else hours₀
  let days : ℤ := max 1 days_remaining
  let base_per_day : ℚ := hours / (days : ℚ)
  let bonus : ℚ := bonus_for_diff diff
  let raw_daily : ℚ :=
    if (days : ℚ) ≥ hours * 1.5 then max (1 / 2) (base_per_day + bonus * (1 / 2))
    else base_per_day + bonus
  let daily : ℚ := (pyRound (raw_daily * 2) : ℚ) / 2
  let daily₂ : ℚ := if daily < 1 / 4 then 1 / 4 else daily
  if daily₂ > 12 then 12 else daily₂

/-- Daily-recommendation formula exactly as the specification words it for
C9: base plus difficulty bonus, bonus halved when time is plentiful, rounded
to the nearest half (ties to even multiples of one half) and clamped to
the interval from 1/4 to 12.  It lacks the 1/2 floor the code applies in
the plentiful-time branch. -/
def claimFormulaC9 (hours : ℚ) (difficulty : String) (days_remaining : ℤ) : ℚ :=
  let base : ℚ := hours / (days_remaining : ℚ)
  let bonus : ℚ := if difficulty = "Easy" then 0 else if difficulty = "Medium" then 1 else 2
  let bonus₂ : ℚ := if (days_remaining : ℚ) ≥ hours * 1.5 then bonus / 2 else bonus
  min 12 (max (1 / 4) ((pyRound ((base + bonus₂) * 2) : ℚ) / 2))

/-- Daily-recommendation formula as amended: identical to `claimFormulaC9`
except that in the plentiful-time branch the pre-rounding value is floored
at 1/2, as the code does. -/
def amendedFormulaC9 (hours : ℚ) (difficulty : String) (days_remaining : ℤ) : ℚ :=
  let base : ℚ := hours / (days_remaining : ℚ)
  let bonus : ℚ := if difficulty = "Easy" then 0 else if difficulty = "Medium" then 1 else 2
  let raw : ℚ :=
    if (days_remaining : ℚ) ≥ hours * 1.5 then max (1 / 2) (base + bonus / 2)
    else base + bonus
  min 12 (max (1 / 4) ((pyRound (raw * 2) : ℚ) / 2))

/-- Hour span of the sessions of a list whose subject satisfies `p`. -/
def hoursP (p : String → Bool) (l : List Session) : ℤ :=
  ((l.filter (fun s => p s.subject)).map sessHours).sum

/-- Number of sessions over the whole schedule dict whose subject
satisfies `p`. -/
def countSched (p : String → Bool) (sched : String → List Session) : ℕ :=
  (weekdayNames.map (fun d => ((sched d).filter (fun s => p s.subject)).length)).sum

/-- Number of blocks of a list whose subject satisfies `p`. -/
def countBlocks (p : String → Bool) (l : List Block) : ℕ :=
  (l.filter (fun b => p b.subject)).length

/-- Saturation: every cycle day has reached the daily capacity. -/
def Saturated (cap : ℚ) (cycle : List String) (spent : String → ℕ) : Prop :=
  ∀ d ∈ cycle, cap ≤ (spent d : ℚ)

/-- A session as emitted by step 4: its boundary hours parse and its
`duration_hs` field holds their rendered difference. -/
def Finalized (s : Session) : Prop :=
  ∃ a b, parseHour? s.start_time = some a ∧ parseHour? s.end_time = some b ∧
    s.duration_hs = some (pyFloatStr (b - a) ++ "h")

/-- Loop invariant of the distribution step, after `processed` blocks. -/
structure PInv (cap : ℚ) (cycle : List String) (processed : List Block) (st : PState) : Prop where
  idx_lt : st.idx < cycle.length
  spent_sched : ∀ d, (st.sched d).length = st.spent d
  spent_bound : ∀ d, (st.spent d : ℤ) ≤ capBound cap
  spent_cycle : ∀ d, st.spent d ≠ 0 → d ∈ cycle ∧ d ∈ weekdayNames
  sess_hours : ∀ d s, s ∈ st.sched d → sessHours s = 1
  count_le : ∀ p : String → Bool, countSched p st.sched ≤ countBlocks p processed
  placed_all : countSched (fun _ => true) st.sched = processed.length ∨
    (Saturated cap cycle st.spent ∧ countSched (fun _ => true) st.sched < processed.length)

/-- Rebuilding a string from its character data gives the string back. -/
theorem strMk_data (s : String) : (⟨s.data⟩ : String) = s := by
  cases s
  rfl

/-- Character code of a digit character lies in the decimal digit range. -/
theorem digitChar_range (d : ℕ) : 48 ≤ (digitChar d).toNat ∧ (digitChar d).toNat ≤ 57 := by
  match d with
  | 0 => decide
  | 1 => decide
  | 2 => decide
  | 3 => decide
  | 4 => decide
  | 5 => decide
  | 6 => decide
  | 7 => decide
  | 8 => decide
  | n + 9 =>
    show 48 ≤ ('9').toNat ∧ ('9').toNat ≤ 57
    decide

/-- Reading back a digit character yields its value. -/
theorem digitVal_digitChar (d : ℕ) (h : d < 10) : digitVal? (digitChar d) = some d := by
  interval_cases d <;> decide

/-- The accumulating decimal reader distributes over list append. -/
theorem parseDigitsAux_append (l₁ l₂ : List Char) (acc : ℕ) :
    parseDigitsAux (l₁ ++ l₂) acc =
      match parseDigitsAux l₁ acc with
      | some a => parseDigitsAux l₂ a
      | none => none := by
  induction l₁ generalizing acc with
  | nil => rfl
  | cons c cs ih =>
    simp only [List.cons_append, parseDigitsAux]
    cases hc : digitVal? c with
    | none => rfl
    | some d => exact ih (acc * 10 + d)

/-- Every digit produced by the fuel-indexed expansion of `n ≤ fuel` is a
decimal digit. -/
theorem natDigitsRevF_lt (fuel : ℕ) : ∀ n, n ≤ fuel → ∀ d ∈ natDigitsRevF fuel n, d < 10 := by
  induction fuel with
  | zero =>
    intro n hn d hd
    interval_cases n
    simp only [natDigitsRevF, List.mem_singleton] at hd
    omega
  | succ fuel ih =>
    intro n hn d hd
    rw [natDigitsRevF] at hd
    by_cases h10 : n < 10
    · rw [if_pos h10] at hd
      simp only [List.mem_singleton] at hd
      omega
    · rw [if_neg h10] at hd
      rcases List.mem_cons.mp hd with hd | hd
      · have := Nat.mod_lt n (show 0 < 10 by omega)
        omega
      · exact ih (n / 10) (by omega) d hd

/-- The fuel-indexed expansion is never the empty list. -/
theorem natDigitsRevF_ne_nil (fuel n : ℕ) : natDigitsRevF fuel n ≠ [] := by
  cases fuel with
  | zero => simp [natDigitsRevF]
  | succ fuel =>
    rw [natDigitsRevF]
    split <;> simp

/-- Reading back the rendered digits of `n ≤ fuel` recovers `n`, shifted
past the accumulator. -/
theorem natDigitsRevF_parse (fuel : ℕ) : ∀ n acc, n ≤ fuel →
    parseDigitsAux (((natDigitsRevF fuel n).reverse).map digitChar) acc =
      some (acc * 10 ^ (natDigitsRevF fuel n).length + n) := by
  induction fuel with
  | zero =>
    intro n acc hn
    interval_cases n
    simp [natDigitsRevF, parseDigitsAux, digitVal_digitChar 0 (by omega)]
  | succ fuel ih =>
    intro n acc hn
    rw [natDigitsRevF]
    by_cases h10 : n < 10
    · rw [if_pos h10]
      simp [parseDigitsAux, digitVal_digitChar n h10]
    · rw [if_neg h10]
      have hrec : n / 10 ≤ fuel := by
        have : n / 10 < n := Nat.div_lt_self (by omega) (by omega)
        omega
      simp only [List.reverse_cons, List.map_append]
      rw [parseDigitsAux_append]
      rw [ih (n / 10) acc hrec]
      simp only [List.map_cons, List.map_nil, parseDigitsAux,
        digitVal_digitChar (n % 10) (Nat.mod_lt n (by omega))]
      congr 1
      rw [List.length_cons, Nat.pow_succ, ← Nat.mul_assoc]
      have hmod := Nat.div_add_mod n 10
      generalize acc * 10 ^ (natDigitsRevF fuel (n / 10)).length = k
      omega

/-- Reading back `natStr n` recovers `n`. -/
theorem parse_natStr (n : ℕ) : parseDigitsAux (natStr n).data 0 = some n := by
  show parseDigitsAux (((natDigitsRev n).reverse).map digitChar) 0 = some n
  rw [natDigitsRev, natDigitsRevF_parse n n 0 le_rfl]
  simp

/-- Every character of `natStr n` is a digit character. -/
theorem natStr_chars (n : ℕ) : ∀ c ∈ (natStr n).data, ∃ d, d < 10 ∧ c = digitChar d := by
  intro c hc
  have hc₂ : c ∈ ((natDigitsRev n).reverse).map digitChar := hc
  rw [List.mem_map] at hc₂
  obtain ⟨d, hd, rfl⟩ := hc₂
  rw [List.mem_reverse] at hd
  exact ⟨d, natDigitsRevF_lt n n le_rfl d hd, rfl⟩

/-- The rendering `natStr n` is a non-empty string. -/
theorem natStr_ne_nil (n : ℕ) : (natStr n).data ≠ [] := by
  show ((natDigitsRev n).reverse).map digitChar ≠ []
  simp [natDigitsRev, natDigitsRevF_ne_nil]

/-- A digit character is not a sign or separator character. -/
theorem digitChar_not_special (d : ℕ) :
    digitChar d ≠ '-' ∧ digitChar d ≠ '+' ∧ digitChar d ≠ ':' := by
  have h := digitChar_range d
  refine ⟨?_, ?_, ?_⟩ <;> intro hEq <;> rw [hEq] at h <;> revert h <;> decide

/-- Reading back `natStr n` through the Python `int` parser gives `n`. -/
theorem pyParseInt_natStr (n : ℕ) : pyParseInt? (natStr n) = some (n : ℤ) := by
  rw [pyParseInt?]
  cases hdata : (natStr n).data with
  | nil => exact absurd hdata (natStr_ne_nil n)
  | cons c cs =>
    have hc : ∃ d, d < 10 ∧ c = digitChar d := by
      apply natStr_chars n
      rw [hdata]
      exact List.mem_cons_self c cs
    obtain ⟨d, _, rfl⟩ := hc
    have hns := digitChar_not_special d
    simp only [pyParseIntList?]
    rw [if_neg hns.1, if_neg hns.2.1]
    have hp := parse_natStr n
    rw [hdata] at hp
    rw [hp]
    rfl

/-- Reading back `pad2 z` through the Python `int` parser gives `z`. -/
theorem pyParseInt_pad2 (z : ℤ) : pyParseInt? (pad2 z) = some z := by
  rw [pad2]
  by_cases hz : 0 ≤ z ∧ z < 10
  · rw [if_pos hz]
    have hdata : ("0" ++ intStr z).data = '0' :: (intStr z).data := by
      rw [String.data_append]
      rfl
    rw [pyParseInt?, hdata]
    simp only [pyParseIntList?]
    rw [if_neg (by decide), if_neg (by decide)]
    rw [intStr, if_neg (by omega)]
    have h0 : parseDigitsAux ('0' :: (natStr z.toNat).data) 0 =
        parseDigitsAux ((natStr z.toNat).data) 0 := by
      simp [parseDigitsAux, digitVal?]
    rw [h0, parse_natStr]
    simp [Int.toNat_of_nonneg hz.1]
  · rw [if_neg hz]
    rw [intStr]
    by_cases hneg : z < 0
    · rw [if_pos hneg]
      have hdata : ("-" ++ natStr z.natAbs).data = '-' :: (natStr z.natAbs).data := by
        rw [String.data_append]
        rfl
      rw [pyParseInt?, hdata]
      have hp := parse_natStr z.natAbs
      cases hd : (natStr z.natAbs).data with
      | nil => exact absurd hd (natStr_ne_nil _)
      | cons c cs =>
        rw [hd] at hp
        simp only [pyParseIntList?, hp]
        simp
        rw [abs_of_neg hneg]
        ring
    · rw [if_neg hneg]
      rw [pyParseInt_natStr]
      congr 1
      omega

/-- Splitting at the colon after a colon-free prefix cuts exactly there. -/
theorem splitColonAux_append (l₁ : List Char) (h : ∀ c ∈ l₁, c ≠ ':') :
    ∀ acc l₂, splitColonAux (l₁ ++ ':' :: l₂) acc =
      (⟨acc.reverse ++ l₁⟩ : String) :: splitColonAux l₂ [] := by
  induction l₁ with
  | nil =>
    intro acc l₂
    show splitColonAux (':' :: l₂) acc = _
    rw [splitColonAux, if_pos rfl]
    simp
  | cons c cs ih =>
    intro acc l₂
    show splitColonAux (c :: (cs ++ ':' :: l₂)) acc = _
    rw [splitColonAux, if_neg (h c (List.mem_cons_self c cs))]
    rw [ih (fun x hx => h x (List.mem_cons_of_mem c hx)) (c :: acc) l₂]
    simp

/-- Splitting a colon-free list yields that single chunk. -/
theorem splitColonAux_no_colon (l : List Char) (h : ∀ c ∈ l, c ≠ ':') :
    ∀ acc, splitColonAux l acc = [⟨acc.reverse ++ l⟩] := by
  induction l with
  | nil =>
    intro acc
    simp [splitColonAux]
  | cons c cs ih =>
    intro acc
    rw [splitColonAux, if_neg (h c (List.mem_cons_self c cs))]
    rw [ih (fun x hx => h x (List.mem_cons_of_mem c hx)) (c :: acc)]
    simp

/-- No character of `pad2 z` is a colon. -/
theorem pad2_no_colon (z : ℤ) : ∀ c ∈ (pad2 z).data, c ≠ ':' := by
  intro c hc
  rw [pad2] at hc
  have hint : ∀ x ∈ (intStr z).data, x ≠ ':' := by
    intro x hx
    rw [intStr] at hx
    split at hx
    · rw [String.data_append] at hx
      rcases List.mem_append.mp hx with h | h
      · have : x = '-' := by simpa using h
        rw [this]
        decide
      · obtain ⟨d, _, rfl⟩ := natStr_chars _ x h
        exact (digitChar_not_special d).2.2
    · obtain ⟨d, _, rfl⟩ := natStr_chars _ x hx
      exact (digitChar_not_special d).2.2
  split at hc
  · rw [String.data_append] at hc
    rcases List.mem_append.mp hc with h | h
    · have : c = '0' := by simpa using h
      rw [this]
      decide
    · exact hint c h
  · exact hint c hc

/-- Splitting a formatted time at the colon recovers its two fields. -/
theorem pySplitColon_format_time (h m : ℤ) :
    pySplitColon (format_time h m) = [pad2 h, pad2 m] := by
  have hdata : (format_time h m).data = (pad2 h).data ++ ':' :: (pad2 m).data := by
    show ((pad2 h ++ ":") ++ pad2 m).data = _
    rw [String.data_append, String.data_append]
    simp
  rw [pySplitColon, hdata, splitColonAux_append (pad2 h).data (pad2_no_colon h) [] _]
  rw [splitColonAux_no_colon (pad2 m).data (pad2_no_colon m) []]
  simp [strMk_data]

/-- The hour read back from a formatted time is the formatted hour. -/
theorem parseHour_format_time (h m : ℤ) : parseHour? (format_time h m) = some h := by
  rw [parseHour?, pySplitColon_format_time]
  exact pyParseInt_pad2 h

/-- The stable sort of a day's sessions is a permutation of them. -/
theorem sortByStart_perm (l : List Session) : List.Perm (sortByStart l) l :=
  List.perm_insertionSort startLE l

/-- The stable block sort is a permutation of the block list. -/
theorem sortBlocks_perm (l : List Block) : List.Perm (sortBlocks l) l :=
  List.perm_insertionSort blockGE l

/-- The subject-filtered hour measure only depends on the multiset of
sessions. -/
theorem hoursP_perm (p : String → Bool) {l₁ l₂ : List Session} (h : List.Perm l₁ l₂) :
    hoursP p l₁ = hoursP p l₂ :=
  ((h.filter _).map _).sum_eq

/-- Unfolding of the subject-filtered hour measure on a cons cell. -/
theorem hoursP_cons (p : String → Bool) (x : Session) (l : List Session) :
    hoursP p (x :: l) = (if p x.subject then sessHours x else 0) + hoursP p l := by
  rw [hoursP, hoursP, List.filter_cons]
  split
  · simp
  · simp

/-- Finalisation only fills the `duration_hs` field. -/
theorem finalizeSession_fields {s c : Session} (h : finalizeSession? s = some c) :
    c.subject = s.subject ∧ c.difficulty = s.difficulty ∧ c.priority = s.priority ∧
    c.start_time = s.start_time ∧ c.end_time = s.end_time := by
  rw [finalizeSession?] at h
  cases ha : parseHour? s.start_time with
  | none => rw [ha] at h; simp at h
  | some a =>
    cases hb : parseHour? s.end_time with
    | none => rw [ha, hb] at h; simp at h
    | some b =>
      rw [ha, hb] at h
      simp only [Option.some_inj] at h
      rw [← h]
      exact ⟨rfl, rfl, rfl, rfl, rfl⟩

/-- Finalisation succeeds exactly when both boundary times parse, and the
result satisfies the `Finalized` predicate. -/
theorem finalizeSession_finalized {s c : Session} (h : finalizeSession? s = some c) :
    Finalized c := by
  rw [finalizeSession?] at h
  cases ha : parseHour? s.start_time with
  | none => rw [ha] at h; simp at h
  | some a =>
    cases hb : parseHour? s.end_time with
    | none => rw [ha, hb] at h; simp at h
    | some b =>
      rw [ha, hb] at h
      simp only [Option.some_inj] at h
      refine ⟨a, b, ?_, ?_, ?_⟩ <;> rw [← h] <;> simp [ha, hb]

/-- Finalising an already finalised session returns it unchanged. -/
theorem finalizeSession_of_finalized {c : Session} (h : Finalized c) :
    finalizeSession? c = some c := by
  obtain ⟨a, b, ha, hb, hdur⟩ := h
  rw [finalizeSession?, ha, hb]
  cases c
  simp at hdur
  subst hdur
  rfl

/-- The hour span of a finalised session equals that of the original. -/
theorem finalizeSession_sessHours {s c : Session} (h : finalizeSession? s = some c) :
    sessHours c = sessHours s := by
  obtain ⟨_, _, _, h4, h5⟩ := finalizeSession_fields h
  rw [sessHours, sessHours, h4, h5]

/-- The merge loop of step 4 preserves the subject-filtered hour measure:
merging two contiguous sessions adds their spans, and finalisation keeps
spans unchanged. -/
theorem consolidateLoop_hoursP (p : String → Bool) :
    ∀ (rest : List Session) (cur : Session) (out : List Session),
      consolidateLoop cur rest = .ok out → hoursP p out = hoursP p (cur :: rest) := by
  intro rest
  induction rest with
  | nil =>
    intro cur out h
    rw [consolidateLoop] at h
    cases hf : finalizeSession? cur with
    | none => rw [hf] at h; exact absurd h (by simp)
    | some c =>
      rw [hf] at h
      simp only [Except.ok.injEq] at h
      rw [← h, hoursP_cons, hoursP_cons]
      have h1 := finalizeSession_sessHours hf
      have h2 := (finalizeSession_fields hf).1
      rw [h1, h2]
  | cons nxt rest ih =>
    intro cur out h
    rw [consolidateLoop] at h
    by_cases hm : mergeCond cur nxt
    · rw [if_pos hm] at h
      have := ih { cur with end_time := nxt.end_time } out h
      rw [this]
      obtain ⟨hms, hmd, hmt⟩ := hm
      rw [hoursP_cons, hoursP_cons, hoursP_cons]
      have hsubj : ({ cur with end_time := nxt.end_time } : Session).subject = cur.subject := rfl
      rw [hsubj]
      have hspan : sessHours { cur with end_time := nxt.end_time } =
          sessHours cur + sessHours nxt := by
        rw [sessHours, sessHours, sessHours]
        have : parseHour? nxt.start_time = parseHour? cur.end_time := by rw [hmt]
        rw [this]
        ring
      cases hp : p cur.subject
      · rw [hms, hp]
        simp
      · rw [hms, hp]
        simp only [if_true]
        rw [hspan]
        ring
    · rw [if_neg hm] at h
      cases hf : finalizeSession? cur with
      | none => rw [hf] at h; exact absurd h (by simp)
      | some c =>
        rw [hf] at h
        cases hrec : consolidateLoop nxt rest with
        | error e => rw [hrec] at h; exact absurd h (by simp [Except.map])
        | ok out₂ =>
          rw [hrec] at h
          simp only [Except.map, Except.ok.injEq] at h
          rw [← h, hoursP_cons, hoursP_cons]
          rw [ih nxt out₂ hrec]
          have h1 := finalizeSession_sessHours hf
          have h2 := (finalizeSession_fields hf).1
          rw [h1, h2]

/-- Step 4 on one day preserves the subject-filtered hour measure. -/
theorem consolidateDay_hoursP (p : String → Bool) {l out : List Session}
    (h : consolidateDay l = .ok out) : hoursP p out = hoursP p l := by
  rw [consolidateDay] at h
  cases hs : sortByStart l with
  | nil =>
    rw [hs] at h
    simp only [Except.ok.injEq] at h
    have : l = [] := by
      have := sortByStart_perm l
      rw [hs] at this
      exact this.symm.eq_nil
    rw [← h, this]
  | cons first rest =>
    rw [hs] at h
    have := consolidateLoop_hoursP p rest first out h
    rw [this, ← hs]
    exact hoursP_perm p (sortByStart_perm l)

/-- A defaulted index read inside bounds returns a list element. -/
theorem getD_mem : ∀ (l : List String) (i : ℕ) (x : String), i < l.length → l.getD i x ∈ l
  | a :: _, 0, _, _ => List.mem_cons_self a _
  | _ :: l, i + 1, x, h => List.mem_cons_of_mem _ (getD_mem l i x (by simpa using Nat.lt_of_succ_lt_succ h))

/-- Every list member sits at some defaulted index inside bounds. -/
theorem mem_getD : ∀ (l : List String) (d : String), d ∈ l → ∃ t < l.length, l.getD t "" = d := by
  intro l d hd
  induction l with
  | nil => cases hd
  | cons a l ih =>
    rcases List.mem_cons.mp hd with h | h
    · exact ⟨0, by simp, h.symm⟩
    · obtain ⟨t, ht, hget⟩ := ih h
      exact ⟨t + 1, by simpa using Nat.succ_lt_succ ht, hget⟩

/-- Starting anywhere, a full cycle of incremented indices modulo the
length visits every position. -/
theorem cycle_index_cover {len idx t : ℕ} (hidx : idx < len) (ht : t < len) :
    ∃ j < len, (idx + j) % len = t := by
  refine ⟨if idx ≤ t then t - idx else len - idx + t, by split <;> omega, ?_⟩
  split
  · rw [show idx + (t - idx) = t by omega]
    exact Nat.mod_eq_of_lt ht
  · rw [show idx + (len - idx + t) = len + t by omega, Nat.add_mod_left]
    exact Nat.mod_eq_of_lt ht

/-- Characterisation of one inner scan of the distribution loop: when it
places the block it bumps exactly one day with room, recording the
formatted slot times; when it does not, nothing changed and every day
visited during the scan was full. -/
theorem placeLoop_ok {cap : ℚ} {sh sm : ℤ} {cycle : List String} {b : Block}
    (hlen : 0 < cycle.length) :
    ∀ (fuel idx : ℕ) (spent : String → ℕ) (sched : String → List Session) (r : ScanResult),
      idx < cycle.length →
      placeLoop cap sh sm cycle b fuel idx spent sched = .ok r →
      r.idx < cycle.length ∧
      (r.placed = true →
        ∃ d, d ∈ cycle ∧ d ∈ weekdayNames ∧ ((spent d : ℚ) < cap) ∧
          r.spent = (fun x => if x = d then spent x + 1 else spent x) ∧
          r.sched = (fun x => if x = d then sched x ++
            [⟨b.subject, b.difficulty, b.priority,
              format_time (sh + (spent d : ℤ)) sm,
              format_time (sh + (spent d : ℤ) + 1) sm, none⟩] else sched x)) ∧
      (r.placed = false →
        r.spent = spent ∧ r.sched = sched ∧
        ∀ j < fuel, ¬ ((spent (cycle.getD ((idx + j) % cycle.length) "") : ℚ) < cap)) := by
  intro fuel
  induction fuel with
  | zero =>
    intro idx spent sched r hidx h
    rw [placeLoop] at h
    simp only [Except.ok.injEq] at h
    subst h
    refine ⟨hidx, ?_, ?_⟩
    · intro hp
      cases hp
    · intro _
      exact ⟨rfl, rfl, fun j hj => absurd hj (by omega)⟩
  | succ fuel ih =>
    intro idx spent sched r hidx h
    rw [placeLoop] at h
    by_cases hcap : ((spent (cycle.getD idx "") : ℚ) < cap)
    · rw [if_pos hcap] at h
      by_cases hwk : cycle.getD idx "" ∈ weekdayNames
      · rw [if_pos hwk] at h
        simp only [Except.ok.injEq] at h
        subst h
        refine ⟨hidx, ?_, ?_⟩
        · intro _
          exact ⟨cycle.getD idx "", getD_mem cycle idx "" hidx, hwk, hcap, rfl, rfl⟩
        · intro hp
          cases hp
      · rw [if_neg hwk] at h
        cases h
    · rw [if_neg hcap] at h
      have hidx₂ : (idx + 1) % cycle.length < cycle.length := Nat.mod_lt _ hlen
      obtain ⟨h1, h2, h3⟩ := ih ((idx + 1) % cycle.length) spent sched r hidx₂ h
      refine ⟨h1, h2, ?_⟩
      intro hp
      obtain ⟨hs, hc, hall⟩ := h3 hp
      refine ⟨hs, hc, ?_⟩
      intro j hj
      cases j with
      | zero =>
        rw [Nat.add_zero, Nat.mod_eq_of_lt hidx]
        exact hcap
      | succ j =>
        have := hall j (by omega)
        rw [Nat.mod_add_mod, show idx + 1 + j = idx + (j + 1) by omega] at this
        exact this

/-- The weekday key list has no duplicate entries. -/
theorem weekdayNames_nodup : weekdayNames.Nodup := by decide

/-- Summing a pointwise-updated map over a duplicate-free list adds the
increment of the one updated element. -/
theorem sum_map_update {L : List String} (hnd : L.Nodup) {d : String} (hd : d ∈ L)
    (f g : String → ℕ) (k : ℕ) (hfd : g d = f d + k)
    (hoth : ∀ x, x ≠ d → g x = f x) :
    (L.map g).sum = (L.map f).sum + k := by
  induction L with
  | nil => cases hd
  | cons a L ih =>
    rcases List.mem_cons.mp hd with h | h
    · subst h
      have haL : d ∉ L := (List.nodup_cons.mp hnd).1
      have hmap : L.map g = L.map f :=
        List.map_congr_left (fun x hx => hoth x (fun he => haL (he ▸ hx)))
      simp only [List.map_cons, List.sum_cons, hmap, hfd]
      omega
    · have hne : a ≠ d := by
        intro he
        exact (List.nodup_cons.mp hnd).1 (he ▸ h)
      simp only [List.map_cons, List.sum_cons, hoth a hne,
        ih (List.nodup_cons.mp hnd).2 h]
      omega

/-- Appending one session to one weekday bumps the schedule-wide count by
its indicator. -/
theorem countSched_bump (p : String → Bool) (sched : String → List Session) (d : String)
    (hd : d ∈ weekdayNames) (sess : Session) :
    countSched p (fun x => if x = d then sched x ++ [sess] else sched x) =
      countSched p sched + (if p sess.subject then 1 else 0) := by
  apply sum_map_update weekdayNames_nodup hd
  · show (List.filter (fun s => p s.subject)
        (if d = d then sched d ++ [sess] else sched d)).length = _
    rw [if_pos rfl, List.filter_append]
    simp only [List.length_append]
    congr 1
    rw [List.filter]
    split <;> simp_all
  · intro x hx
    show (List.filter (fun s => p s.subject)
        (if x = d then sched x ++ [sess] else sched x)).length = _
    rw [if_neg hx]

/-- Appending one block bumps the block count by its indicator. -/
theorem countBlocks_append (p : String → Bool) (l : List Block) (b : Block) :
    countBlocks p (l ++ [b]) = countBlocks p l + (if p b.subject then 1 else 0) := by
  rw [countBlocks, countBlocks, List.filter_append, List.length_append]
  congr 1
  rw [List.filter]
  split <;> simp_all

/-- The unfiltered block count is the length. -/
theorem countBlocks_len (l : List Block) : countBlocks (fun _ => true) l = l.length := by
  rw [countBlocks]
  congr 1
  exact List.filter_true l

/-- The hour bound is non-negative. -/
theorem capBound_nonneg (cap : ℚ) : 0 ≤ capBound cap :=
  le_max_left 0 _

/-- A day strictly below capacity stays within the hour bound after one
more block. -/
theorem spent_lt_capBound {cap : ℚ} {n : ℕ} (h : (n : ℚ) < cap) :
    (n : ℤ) + 1 ≤ capBound cap := by
  have h1 : ((n : ℤ) : ℚ) < cap := by push_cast; exact h
  have h2 : (n : ℤ) < ⌈cap⌉ := Int.lt_ceil.mpr h1
  have h3 : ⌈cap⌉ ≤ capBound cap := le_max_right 0 _
  omega

/-- Processing one block preserves the distribution-loop invariant. -/
theorem placeBlock_inv {cap : ℚ} {sh sm : ℤ} {cycle : List String} (hlen : 0 < cycle.length)
    {processed : List Block} {st st₂ : PState} {b : Block}
    (hinv : PInv cap cycle processed st)
    (h : placeBlock cap sh sm cycle st b = .ok st₂) :
    PInv cap cycle (processed ++ [b]) st₂ := by
  rw [placeBlock] at h
  cases hpl : placeLoop cap sh sm cycle b cycle.length st.idx st.spent st.sched with
  | error e => rw [hpl] at h; cases h
  | ok r =>
    rw [hpl] at h
    simp only [Except.ok.injEq] at h
    obtain ⟨hridx, hplaced, hnot⟩ :=
      placeLoop_ok hlen cycle.length st.idx st.spent st.sched r hinv.idx_lt hpl
    subst h
    cases hp : r.placed with
    | true =>
      obtain ⟨d, hdc, hdw, hdcap, hsp, hsc⟩ := hplaced hp
      refine ⟨Nat.mod_lt _ hlen, ?_, ?_, ?_, ?_, ?_, ?_⟩
      · intro x
        show (r.sched x).length = r.spent x
        simp only [hsp, hsc]
        by_cases hx : x = d
        · simp [hx, hinv.spent_sched d]
        · simp [hx, hinv.spent_sched x]
      · intro x
        show ((r.spent x : ℤ)) ≤ capBound cap
        simp only [hsp]
        by_cases hx : x = d
        · subst hx
          rw [if_pos rfl]
          push_cast
          exact spent_lt_capBound hdcap
        · rw [if_neg hx]
          exact hinv.spent_bound x
      · intro x hx0
        show x ∈ cycle ∧ x ∈ weekdayNames
        simp only [hsp] at hx0
        by_cases hx : x = d
        · subst hx
          exact ⟨hdc, hdw⟩
        · rw [if_neg hx] at hx0
          exact hinv.spent_cycle x hx0
      · intro x s hs
        show sessHours s = 1
        simp only [hsc] at hs
        by_cases hx : x = d
        · rw [if_pos hx] at hs
          rcases List.mem_append.mp hs with hold | hnew
          · exact hinv.sess_hours x s hold
          · rw [List.mem_singleton] at hnew
            subst hnew
            rw [sessHours]
            simp only [parseHour_format_time]
            simp
        · rw [if_neg hx] at hs
          exact hinv.sess_hours x s hs
      · intro p
        show countSched p r.sched ≤ countBlocks p (processed ++ [b])
        rw [hsc, countSched_bump p st.sched d hdw, countBlocks_append]
        exact Nat.add_le_add_right (hinv.count_le p) _
      · show countSched (fun _ => true) r.sched = (processed ++ [b]).length ∨ _
        rw [hsc, countSched_bump (fun _ => true) st.sched d hdw]
        rcases hinv.placed_all with heq | ⟨hsat, _⟩
        · left
          rw [heq, List.length_append]
          simp
        · exact absurd hdcap (not_lt.mpr (hsat d hdc))
    | false =>
      obtain ⟨hsp, hsc, hall⟩ := hnot hp
      have hsat : Saturated cap cycle st.spent := by
        intro d hd
        obtain ⟨t, ht, hg⟩ := mem_getD cycle d hd
        obtain ⟨j, hj, hjt⟩ := cycle_index_cover hinv.idx_lt ht
        have := hall j hj
        rw [hjt, hg] at this
        exact not_lt.mp this
      refine ⟨Nat.mod_lt _ hlen, ?_, ?_, ?_, ?_, ?_, ?_⟩
      · intro x
        show (r.sched x).length = r.spent x
        simp only [hsp, hsc]
        exact hinv.spent_sched x
      · intro x
        show ((r.spent x : ℤ)) ≤ capBound cap
        simp only [hsp]
        exact hinv.spent_bound x
      · intro x hx0
        show x ∈ cycle ∧ x ∈ weekdayNames
        simp only [hsp] at hx0
        exact hinv.spent_cycle x hx0
      · intro x s hs
        show sessHours s = 1
        simp only [hsc] at hs
        exact hinv.sess_hours x s hs
      · intro p
        show countSched p r.sched ≤ countBlocks p (processed ++ [b])
        rw [hsc, countBlocks_append]
        exact le_trans (hinv.count_le p) (Nat.le_add_right _ _)
      · show countSched (fun _ => true) r.sched = (processed ++ [b]).length ∨ _
        right
        rw [hsp, hsc]
        refine ⟨hsat, ?_⟩
        have hle : countSched (fun _ => true) st.sched ≤ processed.length := by
          have := hinv.count_le (fun _ => true)
          rwa [countBlocks_len] at this
        rw [List.length_append]
        simp only [List.length_singleton]
        omega

/-- The distribution loop preserves the invariant over any block list. -/
theorem placeFold_inv {cap : ℚ} {sh sm : ℤ} {cycle : List String} (hlen : 0 < cycle.length) :
    ∀ (blocks : List Block) (st st₂ : PState) (processed : List Block),
      PInv cap cycle processed st →
      placeFold cap sh sm cycle st blocks = .ok st₂ →
      PInv cap cycle (processed ++ blocks) st₂ := by
  intro blocks
  induction blocks with
  | nil =>
    intro st st₂ processed hinv h
    rw [placeFold] at h
    simp only [Except.ok.injEq] at h
    subst h
    simpa using hinv
  | cons b bs ih =>
    intro st st₂ processed hinv h
    rw [placeFold] at h
    cases hb : placeBlock cap sh sm cycle st b with
    | error e => rw [hb] at h; cases h
    | ok st₁ =>
      rw [hb] at h
      have h₁ := placeBlock_inv hlen hinv hb
      have h₂ := ih st₁ st₂ (processed ++ [b]) h₁ h
      simpa using h₂

/-- The invariant holds in the initial distribution state. -/
theorem PInv_init {cap : ℚ} {cycle : List String} (hlen : 0 < cycle.length) :
    PInv cap cycle [] ⟨0, fun _ => 0, fun _ => []⟩ := by
  refine ⟨hlen, fun d => rfl, ?_, ?_, ?_, ?_, ?_⟩
  · intro d
    exact capBound_nonneg cap
  · intro d hd
    exact absurd rfl hd
  · intro d s hs
    cases hs
  · intro p
    show countSched p (fun _ => []) ≤ countBlocks p []
    rw [countSched, countBlocks]
    simp
  · left
    show countSched (fun _ => true) (fun _ => []) = ([] : List Block).length
    rw [countSched]
    simp

/-- A successful run decomposes into a placement state satisfying the
invariant for the full sorted block list, followed by consolidation. -/
theorem generate_ok_spec {settings : Settings} {subjects : List SubjectInput}
    {m : List (String × List Session)}
    (h : generate_schedule settings subjects = .ok m) :
    ∃ st : PState,
      PInv (resolveConfig settings).cap (day_cycle settings)
        (sortBlocks (mkBlocks subjects)) st ∧
      consolidateAll (weekdayNames.map (fun d => (d, st.sched d))) = .ok m := by
  rw [generate_schedule] at h
  by_cases hd : (resolveConfig settings).studyDays = []
  · rw [if_pos hd] at h
    cases h
  · rw [if_neg hd] at h
    have hlen : 0 < (day_cycle settings).length := by
      rw [day_cycle, List.length_map]
      cases hsd : (resolveConfig settings).studyDays with
      | nil => exact absurd hsd hd
      | cons a l => simp
    cases hpf : placeFold (resolveConfig settings).cap (resolveConfig settings).startHour
        (resolveConfig settings).startMinute (day_cycle settings)
        ⟨0, fun _ => 0, fun _ => []⟩ (sortBlocks (mkBlocks subjects)) with
    | error e =>
      rw [hpf] at h
      cases h
    | ok st =>
      rw [hpf] at h
      dsimp only at h
      cases hca : consolidateAll (weekdayNames.map (fun d => (d, st.sched d))) with
      | error e => rw [hca] at h; cases h
      | ok final =>
        rw [hca] at h
        simp only [GenResult.ok.injEq] at h
        subst h
        refine ⟨st, ?_, hca⟩
        have := placeFold_inv hlen (sortBlocks (mkBlocks subjects)) _ st [] (PInv_init hlen) hpf
        simpa using this

/-- Consolidation relates input and output day lists pointwise. -/
theorem consolidateAll_forall₂ : ∀ {l m : List (String × List Session)},
    consolidateAll l = .ok m →
    List.Forall₂ (fun a b => a.1 = b.1 ∧ consolidateDay a.2 = .ok b.2) l m := by
  intro l
  induction l with
  | nil =>
    intro m h
    rw [consolidateAll] at h
    simp only [Except.ok.injEq] at h
    subst h
    exact List.Forall₂.nil
  | cons a l ih =>
    intro m h
    rw [consolidateAll] at h
    cases hd : consolidateDay a.2 with
    | error e => rw [hd] at h; cases h
    | ok c =>
      rw [hd] at h
      cases hr : consolidateAll l with
      | error e => rw [hr] at h; cases h
      | ok r =>
        rw [hr] at h
        simp only [Except.ok.injEq] at h
        subst h
        exact List.Forall₂.cons ⟨rfl, hd⟩ (ih hr)

/-- A member of the right list of a pointwise relation has a related
member on the left. -/
theorem forall₂_mem_right {α β : Type} {R : α → β → Prop} :
    ∀ {l : List α} {m : List β}, List.Forall₂ R l m → ∀ {b}, b ∈ m → ∃ a ∈ l, R a b := by
  intro l m h
  induction h with
  | nil =>
    intro b hb
    cases hb
  | cons hR _ ih =>
    intro b hb
    rcases List.mem_cons.mp hb with hb | hb
    · exact ⟨_, List.mem_cons_self _ _, hb ▸ hR⟩
    · obtain ⟨a, ha, hr⟩ := ih hb
      exact ⟨a, List.mem_cons_of_mem _ ha, hr⟩

/-- A pointwise-related pair of lists has equal key sequences. -/
theorem forall₂_keys : ∀ {l m : List (String × List Session)},
    List.Forall₂ (fun a b => a.1 = b.1 ∧ consolidateDay a.2 = .ok b.2) l m →
    m.map Prod.fst = l.map Prod.fst := by
  intro l m h
  induction h with
  | nil => rfl
  | cons hR _ ih => simp [ih, hR.1]

/-- The unfiltered hour measure is the plain hour sum. -/
theorem hoursP_true (l : List Session) : hoursP (fun _ => true) l = listHours l := by
  rw [hoursP, listHours, List.filter_true]

/-- A list of unit-span sessions has hour measure its filtered length. -/
theorem hoursP_of_ones (p : String → Bool) :
    ∀ (l : List Session), (∀ s ∈ l, sessHours s = 1) →
      hoursP p l = ((l.filter (fun s => p s.subject)).length : ℤ) := by
  intro l
  induction l with
  | nil => intro _; rfl
  | cons x l ih =>
    intro h1
    rw [hoursP_cons, ih (fun s hs => h1 s (List.mem_cons_of_mem x hs)), List.filter_cons]
    split
    · rw [h1 x (List.mem_cons_self x l)]
      simp only [List.length_cons]
      push_cast
      ring
    · simp

/-- Empty consolidation input yields empty output. -/
theorem consolidateDay_nil : consolidateDay [] = .ok [] := by
  rfl

/-- C1 as amended: on every successful run, the hour total of any day of
the returned schedule is bounded by the daily capacity rounded up to an
integer (and by zero when the capacity is non-positive); the capacity
itself can be exceeded by the fractional part, as the counterexample
shows. -/
theorem C1_amended_capacity (settings : Settings) (subjects : List SubjectInput)
    (m : List (String × List Session))
    (h : generate_schedule settings subjects = .ok m) :
    ∀ d ss, (d, ss) ∈ m → listHours ss ≤ capBound (resolveConfig settings).cap := by
  obtain ⟨st, hinv, hcons⟩ := generate_ok_spec h
  intro d ss hmem
  obtain ⟨a, ha, hfst, hday⟩ := forall₂_mem_right (consolidateAll_forall₂ hcons) hmem
  rw [List.mem_map] at ha
  obtain ⟨w, hw, rfl⟩ := ha
  dsimp only at hfst hday
  have hsum := consolidateDay_hoursP (fun _ => true) hday
  have hones := hoursP_of_ones (fun _ => true) (st.sched w) (fun s hs => hinv.sess_hours w s hs)
  rw [List.filter_true, hinv.spent_sched w] at hones
  rw [← hoursP_true, hsum, hones]
  exact hinv.spent_bound w

/-- Witness for the amended C1 on the counterexample input: Monday holds
two hours, within the ceiling 2 of the capacity 1.5. -/
theorem C1_amended_witness :
    generate_schedule ⟨.val (mkRat 3 2), some "09:00", [("monday", true)]⟩
        [⟨some "Math", .val 2, some "Hard"⟩] =
      .ok [("monday", [⟨"Math", "Hard", 3, "09:00", "11:00", some "2.0h"⟩]),
           ("tuesday", []), ("wednesday", []), ("thursday", []), ("friday", []),
           ("saturday", []), ("sunday", [])] ∧
    listHours [⟨"Math", "Hard", 3, "09:00", "11:00", some "2.0h"⟩] ≤
      capBound (resolveConfig ⟨.val (mkRat 3 2), some "09:00", [("monday", true)]⟩).cap := by
  refine ⟨by decide, ?_⟩
  exact C1_amended_capacity ⟨.val (mkRat 3 2), some "09:00", [("monday", true)]⟩
    [⟨some "Math", .val 2, some "Hard"⟩]
    [("monday", [⟨"Math", "Hard", 3, "09:00", "11:00", some "2.0h"⟩]),
     ("tuesday", []), ("wednesday", []), ("thursday", []), ("friday", []),
     ("saturday", []), ("sunday", [])]
    (by decide) "monday" [⟨"Math", "Hard", 3, "09:00", "11:00", some "2.0h"⟩] (by decide)

/-- C6: on every successful run the returned map has exactly the seven
weekday keys in order, and every weekday outside the (lowercased) active
day cycle maps to the empty session list. -/
theorem C6_inactive_days_empty (settings : Settings) (subjects : List SubjectInput)
    (m : List (String × List Session))
    (h : generate_schedule settings subjects = .ok m) :
    m.map Prod.fst = weekdayNames ∧
    ∀ d ss, (d, ss) ∈ m → d ∉ day_cycle settings → ss = [] := by
  obtain ⟨st, hinv, hcons⟩ := generate_ok_spec h
  constructor
  · rw [forall₂_keys (consolidateAll_forall₂ hcons)]
    rw [List.map_map]
    exact List.map_id weekdayNames
  · intro d ss hmem hnotin
    obtain ⟨a, ha, hfst, hday⟩ := forall₂_mem_right (consolidateAll_forall₂ hcons) hmem
    rw [List.mem_map] at ha
    obtain ⟨w, hw, rfl⟩ := ha
    dsimp only at hfst hday
    have hwd : w = d := hfst
    subst hwd
    have hempty : st.sched w = [] := by
      cases hval : st.sched w with
      | nil => rfl
      | cons x xs =>
        exfalso
        have hne : st.spent w ≠ 0 := by
          rw [← hinv.spent_sched w, hval]
          simp
        exact hnotin (hinv.spent_cycle w hne).1
    rw [hempty, consolidateDay_nil] at hday
    cases hday
    rfl

/-- Witness for C6 at a concrete input: Tuesday is not an active day and
maps to the empty list, and the key list is the seven weekdays. -/
theorem C6_witness :
    generate_schedule ⟨.val 2, some "09:00", [("monday", true)]⟩
        [⟨some "Math", .val 1, some "Hard"⟩] =
      .ok [("monday", [⟨"Math", "Hard", 3, "09:00", "10:00", some "1.0h"⟩]),
           ("tuesday", []), ("wednesday", []), ("thursday", []), ("friday", []),
           ("saturday", []), ("sunday", [])] ∧
    ([("monday", [(⟨"Math", "Hard", 3, "09:00", "10:00", some "1.0h"⟩ : Session)]),
      ("tuesday", []), ("wednesday", []), ("thursday", []), ("friday", []),
      ("saturday", []), ("sunday", [])].map Prod.fst) = weekdayNames := by
  refine ⟨by decide, ?_⟩
  exact (C6_inactive_days_empty ⟨.val 2, some "09:00", [("monday", true)]⟩
    [⟨some "Math", .val 1, some "Hard"⟩]
    [("monday", [⟨"Math", "Hard", 3, "09:00", "10:00", some "1.0h"⟩]),
     ("tuesday", []), ("wednesday", []), ("thursday", []), ("friday", []),
     ("saturday", []), ("sunday", [])] (by decide)).1

/-- The per-subject hour measure is the predicate measure at equality. -/
theorem subjHours_eq_hoursP (n : String) (l : List Session) :
    subjHours n l = hoursP (fun x => x = n) l :=
  rfl

/-- Consolidation preserves per-subject day sums across pointwise-related
schedules. -/
theorem forall₂_sum_subjHours (n : String) :
    ∀ {l m : List (String × List Session)},
      List.Forall₂ (fun a b => a.1 = b.1 ∧ consolidateDay a.2 = .ok b.2) l m →
      (m.map (fun p => subjHours n p.2)).sum = (l.map (fun p => subjHours n p.2)).sum := by
  intro l m h
  induction h with
  | nil => rfl
  | cons hR hrest ih =>
    simp only [List.map_cons, List.sum_cons, ih]
    congr 1
    rw [subjHours_eq_hoursP, subjHours_eq_hoursP]
    exact consolidateDay_hoursP _ hR.2

/-- Sums of two pointwise maps combine into the map of the sum. -/
theorem sum_map_add {α : Type} (L : List α) (f g : α → ℕ) :
    (L.map f).sum + (L.map g).sum = (L.map (fun x => f x + g x)).sum := by
  induction L with
  | nil => rfl
  | cons a L ih =>
    simp only [List.map_cons, List.sum_cons]
    omega

/-- A filter and its complement split the length of a list. -/
theorem filter_split {α : Type} (q : α → Bool) (l : List α) :
    (l.filter q).length + (l.filter (fun x => !(q x))).length = l.length := by
  induction l with
  | nil => rfl
  | cons a l ih =>
    rw [List.filter_cons, List.filter_cons]
    cases hq : q a <;> simp [hq] <;> omega

/-- Casting a sum of naturals to the integers equals the sum of casts. -/
theorem cast_sum_int {α : Type} (L : List α) (f : α → ℕ) :
    (((L.map f).sum : ℕ) : ℤ) = (L.map (fun x => ((f x) : ℤ))).sum := by
  induction L with
  | nil => rfl
  | cons a L ih =>
    simp only [List.map_cons, List.sum_cons]
    push_cast
    rw [← ih]
    push_cast
    ring

/-- Casting a sum of naturals to the rationals equals the sum of casts. -/
theorem cast_sum_rat {α : Type} (L : List α) (f : α → ℕ) :
    (((L.map f).sum : ℕ) : ℚ) = (L.map (fun x => ((f x) : ℚ))).sum := by
  induction L with
  | nil => rfl
  | cons a L ih =>
    simp only [List.map_cons, List.sum_cons]
    push_cast
    rw [← ih]
    push_cast
    ring

/-- The schedule-wide counts of a predicate and its complement add up to
the unfiltered count. -/
theorem countSched_split (p : String → Bool) (sched : String → List Session) :
    countSched p sched + countSched (fun x => !(p x)) sched =
      countSched (fun _ => true) sched := by
  rw [countSched, countSched, countSched, sum_map_add]
  congr 1
  apply List.map_congr_left
  intro d _
  rw [List.filter_true]
  exact filter_split _ _

/-- The block counts of a predicate and its complement add up to the
length. -/
theorem countBlocks_split (p : String → Bool) (l : List Block) :
    countBlocks p l + countBlocks (fun x => !(p x)) l = l.length := by
  rw [countBlocks, countBlocks]
  exact filter_split _ _

/-- Block counts only depend on the multiset of blocks. -/
theorem countBlocks_of_perm (p : String → Bool) {l l₂ : List Block}
    (h : List.Perm l l₂) : countBlocks p l = countBlocks p l₂ :=
  (h.filter _).length_eq

/-- Counting inside a replicated block list. -/
theorem countBlocks_replicate (p : String → Bool) (k : ℕ) (b : Block) :
    countBlocks p (List.replicate k b) = if p b.subject then k else 0 := by
  induction k with
  | zero => simp [countBlocks]
  | succ k ih =>
    rw [List.replicate_succ, countBlocks, List.filter_cons]
    split <;> simp_all [countBlocks]

/-- Block counts add over list append. -/
theorem countBlocks_app (p : String → Bool) (l₁ l₂ : List Block) :
    countBlocks p (l₁ ++ l₂) = countBlocks p l₁ + countBlocks p l₂ := by
  rw [countBlocks, countBlocks, countBlocks, List.filter_append, List.length_append]

/-- Block generation distributes over a cons of the subject list. -/
theorem mkBlocks_cons (s : SubjectInput) (rest : List SubjectInput) :
    mkBlocks (s :: rest) = blocksOf s ++ mkBlocks rest := by
  rw [mkBlocks, mkBlocks, List.map_cons, List.flatten_cons]

/-- Per-name demand unfolds over a cons of the subject list. -/
theorem demandByName_cons (n : String) (s : SubjectInput) (rest : List SubjectInput) :
    demandByName n (s :: rest) =
      (if effName s = n then
        (match subjectHours? s with | none => 0 | some hh => hh) else 0) +
      demandByName n rest := by
  rw [demandByName, demandByName, List.filter_cons]
  by_cases he : effName s = n
  · rw [if_pos (by simpa using he), if_pos he, List.filterMap_cons]
    cases hs : subjectHours? s with
    | none => simp
    | some hh => simp
  · rw [if_neg (by simpa using he), if_neg he]
    ring

/-- Total demand unfolds over a cons of the subject list. -/
theorem totalDemand_cons (s : SubjectInput) (rest : List SubjectInput) :
    totalDemand (s :: rest) =
      (match subjectHours? s with | none => 0 | some hh => hh) + totalDemand rest := by
  rw [totalDemand, totalDemand, List.filterMap_cons]
  cases hs : subjectHours? s with
  | none => simp
  | some hh => simp

/-- Every block a subject contributes carries its effective name. -/
theorem blocksOf_len (s : SubjectInput) :
    (blocksOf s).length = (match subjectHours? s with | none => 0 | some hh => hh.toNat) := by
  rw [blocksOf]
  cases hs : subjectHours? s with
  | none => rfl
  | some hh => simp

/-- Per-name block counts of a subject list equal the per-name rounded
demand, when every parsable demand is non-negative. -/
theorem countBlocks_mk (n : String) :
    ∀ (subjects : List SubjectInput),
      (∀ s ∈ subjects, ∀ hh, subjectHours? s = some hh → 0 ≤ hh) →
      ((countBlocks (fun x => x = n) (mkBlocks subjects) : ℕ) : ℤ) =
        demandByName n subjects := by
  intro subjects
  induction subjects with
  | nil => intro _; rfl
  | cons s rest ih =>
    intro hnn
    rw [mkBlocks_cons, countBlocks_app, demandByName_cons]
    push_cast
    rw [ih (fun x hx hh hs => hnn x (List.mem_cons_of_mem s hx) hh hs)]
    congr 1
    rw [blocksOf]
    cases hs : subjectHours? s with
    | none => simp [countBlocks]
    | some hh =>
      rw [countBlocks_replicate]
      have hb : (⟨effName s, effDifficulty s,
          difficultyPriority (effDifficulty s)⟩ : Block).subject = effName s := rfl
      rw [hb]
      by_cases he : effName s = n
      · rw [if_pos (by simpa using he), if_pos he]
        have := hnn s (List.mem_cons_self s rest) hh hs
        exact Int.toNat_of_nonneg this
      · rw [if_neg (by simpa using he), if_neg he]
        rfl

/-- The number of generated blocks is the total rounded demand, when every
parsable demand is non-negative. -/
theorem mkBlocks_len :
    ∀ (subjects : List SubjectInput),
      (∀ s ∈ subjects, ∀ hh, subjectHours? s = some hh → 0 ≤ hh) →
      (((mkBlocks subjects).length : ℕ) : ℤ) = totalDemand subjects := by
  intro subjects
  induction subjects with
  | nil => intro _; rfl
  | cons s rest ih =>
    intro hnn
    rw [mkBlocks_cons, List.length_append, totalDemand_cons]
    push_cast
    rw [ih (fun x hx hh hs => hnn x (List.mem_cons_of_mem s hx) hh hs)]
    congr 1
    rw [blocksOf_len]
    cases hs : subjectHours? s with
    | none => rfl
    | some hh =>
      have := hnn s (List.mem_cons_self s rest) hh hs
      simp only
      exact Int.toNat_of_nonneg this

/-- Dropping the zero terms outside a support predicate leaves a sum of a
map unchanged. -/
theorem sum_map_filter_support {α : Type} (L : List α) (f : α → ℕ) (P : α → Bool)
    (hz : ∀ d ∈ L, P d = false → f d = 0) :
    (L.map f).sum = ((L.filter P).map f).sum := by
  induction L with
  | nil => rfl
  | cons a L ih =>
    rw [List.map_cons, List.sum_cons, List.filter_cons]
    cases hp : P a with
    | true =>
      simp only [if_true, List.map_cons, List.sum_cons]
      rw [ih (fun d hd h0 => hz d (List.mem_cons_of_mem a hd) h0)]
    | false =>
      rw [if_neg (by simp), hz a (List.mem_cons_self a L) hp,
        ih (fun d hd h0 => hz d (List.mem_cons_of_mem a hd) h0)]
      omega

/-- A sum of per-day rational spends over days that all meet the capacity
is at least the day count times the capacity. -/
theorem length_mul_cap_le_sum (cap : ℚ) (spent : String → ℕ) :
    ∀ (L : List String), (∀ d ∈ L, cap ≤ (spent d : ℚ)) →
      (L.length : ℚ) * cap ≤ (L.map (fun d => (spent d : ℚ))).sum := by
  intro L
  induction L with
  | nil => intro _; simp
  | cons a L ih =>
    intro hall
    rw [List.map_cons, List.sum_cons, List.length_cons]
    push_cast
    have h1 := hall a (List.mem_cons_self a L)
    have h2 := ih (fun d hd => hall d (List.mem_cons_of_mem a hd))
    nlinarith

/-- C4 as amended: on every successful run whose subjects all have
non-negative rounded demands, the hours scheduled under each subject name
are at most the total rounded demand of the entries bearing that name,
with equality whenever the weekly capacity (daily capacity times the
number of distinct active days) is at least the total rounded demand. -/
theorem C4_amended_per_subject (settings : Settings) (subjects : List SubjectInput)
    (m : List (String × List Session))
    (h : generate_schedule settings subjects = .ok m)
    (hnn : ∀ s ∈ subjects, ∀ hh, subjectHours? s = some hh → 0 ≤ hh) :
    (∀ n : String, totalSubjHours n m ≤ demandByName n subjects) ∧
    ((totalDemand subjects : ℚ) ≤
        (numActiveDays settings : ℚ) * (resolveConfig settings).cap →
      ∀ n : String, totalSubjHours n m = demandByName n subjects) := by
  obtain ⟨st, hinv, hcons⟩ := generate_ok_spec h
  have hA : ∀ n : String, totalSubjHours n m =
      ((countSched (fun x => x = n) st.sched : ℕ) : ℤ) := by
    intro n
    rw [totalSubjHours, forall₂_sum_subjHours n (consolidateAll_forall₂ hcons), List.map_map]
    rw [countSched, cast_sum_int]
    apply congrArg List.sum
    apply List.map_congr_left
    intro w hw
    show subjHours n (st.sched w) = _
    rw [subjHours_eq_hoursP]
    exact hoursP_of_ones _ _ (fun s hs => hinv.sess_hours w s hs)
  have hB : ∀ n : String,
      ((countBlocks (fun x => x = n) (sortBlocks (mkBlocks subjects)) : ℕ) : ℤ) =
        demandByName n subjects := by
    intro n
    rw [countBlocks_of_perm _ (sortBlocks_perm _)]
    exact countBlocks_mk n subjects hnn
  refine ⟨?_, ?_⟩
  · intro n
    rw [hA n, ← hB n]
    exact_mod_cast hinv.count_le _
  · intro hcap n
    have hlen_eq := mkBlocks_len subjects hnn
    have hblen : (sortBlocks (mkBlocks subjects)).length = (mkBlocks subjects).length :=
      (sortBlocks_perm _).length_eq
    have htot : countSched (fun _ => true) st.sched =
        (sortBlocks (mkBlocks subjects)).length := by
      rcases hinv.placed_all with heq | ⟨hsat, hlt⟩
      · exact heq
      · exfalso
        have hi : countSched (fun _ => true) st.sched =
            (weekdayNames.map (fun d => st.spent d)).sum := by
          rw [countSched]
          congr 1
          apply List.map_congr_left
          intro d _
          rw [List.filter_true, hinv.spent_sched d]
        have hiiA : (weekdayNames.map (fun d => st.spent d)).sum =
            ((weekdayNames.filter (fun d => d ∈ day_cycle settings)).map
              (fun d => st.spent d)).sum := by
          apply sum_map_filter_support
          intro d _ h0
          by_contra hne
          have hmem := (hinv.spent_cycle d hne).1
          simp only [decide_eq_false_iff_not] at h0
          exact h0 hmem
        have hiiB : (((day_cycle settings).dedup).map (fun d => st.spent d)).sum =
            ((((day_cycle settings).dedup).filter (fun d => d ∈ weekdayNames)).map
              (fun d => st.spent d)).sum := by
          apply sum_map_filter_support
          intro d _ h0
          by_contra hne
          have hmem := (hinv.spent_cycle d hne).2
          simp only [decide_eq_false_iff_not] at h0
          exact h0 hmem
        have hperm : List.Perm (weekdayNames.filter (fun d => d ∈ day_cycle settings))
            (((day_cycle settings).dedup).filter (fun d => d ∈ weekdayNames)) := by
          apply (List.perm_ext_iff_of_nodup (weekdayNames_nodup.filter _)
            ((List.nodup_dedup (day_cycle settings)).filter _)).mpr
          intro x
          simp only [List.mem_filter, List.mem_dedup, decide_eq_true_eq]
          tauto
        have hii : (weekdayNames.map (fun d => st.spent d)).sum =
            (((day_cycle settings).dedup).map (fun d => st.spent d)).sum := by
          rw [hiiA, hiiB]
          exact (hperm.map _).sum_eq
        have hiii : (((day_cycle settings).dedup).length : ℚ) *
              (resolveConfig settings).cap ≤
            (((day_cycle settings).dedup).map (fun d => (st.spent d : ℚ))).sum := by
          apply length_mul_cap_le_sum
          intro d hd
          exact hsat d (List.mem_dedup.mp hd)
        have hcast : (((((day_cycle settings).dedup).map (fun d => st.spent d)).sum : ℕ) : ℚ) =
            (((day_cycle settings).dedup).map (fun d => (st.spent d : ℚ))).sum :=
          cast_sum_rat _ _
        have h1 : ((countSched (fun _ => true) st.sched : ℕ) : ℚ) =
            (((day_cycle settings).dedup).map (fun d => (st.spent d : ℚ))).sum := by
          rw [hi, hii]
          exact hcast
        have h2 : (totalDemand subjects : ℚ) =
            (((sortBlocks (mkBlocks subjects)).length : ℕ) : ℚ) := by
          rw [hblen]
          rw [← hlen_eq]
          push_cast
          ring
        have h3 : ((countSched (fun _ => true) st.sched : ℕ) : ℚ) <
            (((sortBlocks (mkBlocks subjects)).length : ℕ) : ℚ) := by
          exact_mod_cast hlt
        have hnum : (numActiveDays settings : ℚ) =
            (((day_cycle settings).dedup).length : ℚ) := by
          rw [numActiveDays]
        rw [hnum] at hcap
        rw [h1] at h3
        rw [h2] at hcap
        linarith
    have hsplit1 := countSched_split (fun x => x = n) st.sched
    have hsplit2 := countBlocks_split (fun x => x = n) (sortBlocks (mkBlocks subjects))
    have hle1 := hinv.count_le (fun x => x = n)
    have hle2 := hinv.count_le (fun x => !(x = n))
    have hcount : countSched (fun x => x = n) st.sched =
        countBlocks (fun x => x = n) (sortBlocks (mkBlocks subjects)) := by
      omega
    rw [hA n, hcount, hB n]

/-- Witness for the amended C4: with capacity 2 on two active days and a
3-hour Hard subject, all three hours are scheduled, matching the demand. -/
theorem C4_amended_witness :
    generate_schedule ⟨.val 2, some "09:00", [("monday", true), ("tuesday", true)]⟩
        [⟨some "Math", .val 3, some "Hard"⟩] =
      .ok [("monday", [⟨"Math", "Hard", 3, "09:00", "11:00", some "2.0h"⟩]),
           ("tuesday", [⟨"Math", "Hard", 3, "09:00", "10:00", some "1.0h"⟩]),
           ("wednesday", []), ("thursday", []), ("friday", []),
           ("saturday", []), ("sunday", [])] ∧
    totalSubjHours "Math"
        [("monday", [⟨"Math", "Hard", 3, "09:00", "11:00", some "2.0h"⟩]),
         ("tuesday", [⟨"Math", "Hard", 3, "09:00", "10:00", some "1.0h"⟩]),
         ("wednesday", []), ("thursday", []), ("friday", []),
         ("saturday", []), ("sunday", [])] =
      demandByName "Math" [⟨some "Math", .val 3, some "Hard"⟩] := by
  refine ⟨by decide, ?_⟩
  have hnn : ∀ s ∈ [(⟨some "Math", .val 3, some "Hard"⟩ : SubjectInput)],
      ∀ hh, subjectHours? s = some hh → 0 ≤ hh := by
    intro s hs hh hsub
    rw [List.mem_singleton] at hs
    subst hs
    have hval : subjectHours? ⟨some "Math", .val 3, some "Hard"⟩ = some 3 := by decide
    rw [hval] at hsub
    injection hsub with he
    omega
  have hcap : ((totalDemand [(⟨some "Math", .val 3, some "Hard"⟩ : SubjectInput)] : ℤ) : ℚ) ≤
      ((numActiveDays ⟨.val 2, some "09:00", [("monday", true), ("tuesday", true)]⟩ : ℕ) : ℚ) *
        (resolveConfig ⟨.val 2, some "09:00", [("monday", true), ("tuesday", true)]⟩).cap := by
    have h1 : totalDemand [(⟨some "Math", .val 3, some "Hard"⟩ : SubjectInput)] = 3 := by decide
    have h2 : numActiveDays ⟨.val 2, some "09:00", [("monday", true), ("tuesday", true)]⟩ = 2 := by
      decide
    have h3 : (resolveConfig ⟨.val 2, some "09:00",
        [("monday", true), ("tuesday", true)]⟩).cap = 2 := by decide
    rw [h1, h2, h3]
    push_cast
    norm_num
  exact (C4_amended_per_subject
    ⟨.val 2, some "09:00", [("monday", true), ("tuesday", true)]⟩
    [⟨some "Math", .val 3, some "Hard"⟩]
    [("monday", [⟨"Math", "Hard", 3, "09:00", "11:00", some "2.0h"⟩]),
     ("tuesday", [⟨"Math", "Hard", 3, "09:00", "10:00", some "1.0h"⟩]),
     ("wednesday", []), ("thursday", []), ("friday", []),
     ("saturday", []), ("sunday", [])]
    (by decide) hnn).2 hcap "Math"

/-- The code-point order on character lists is asymmetric. -/
theorem charListLt_asymm : ∀ (l₁ l₂ : List Char),
    charListLt l₁ l₂ = true → charListLt l₂ l₁ = false
  | [], [], h => by rw [charListLt] at h; cases h
  | [], _ :: _, _ => rfl
  | _ :: _, [], h => by rw [charListLt] at h; cases h
  | c :: cs, d :: ds, h => by
    rw [charListLt] at h
    rw [charListLt]
    by_cases h1 : c.toNat < d.toNat
    · rw [if_neg (by omega), if_pos h1]
    · rw [if_neg h1] at h
      by_cases h2 : d.toNat < c.toNat
      · rw [if_pos h2] at h
        cases h
      · rw [if_neg h2] at h
        rw [if_neg h2, if_neg h1]
        exact charListLt_asymm cs ds h

/-- The code-point order on character lists is a strict weak order: a
strict pair splits across any middle list. -/
theorem charListLt_split : ∀ (l₁ l₂ l₃ : List Char),
    charListLt l₁ l₃ = true → charListLt l₁ l₂ = true ∨ charListLt l₂ l₃ = true
  | [], [], _, _ => by
    right
    assumption
  | [], _ :: _, _, _ => by
    left
    rfl
  | _ :: _, _, [], h => by
    rw [charListLt] at h
    cases h
  | _ :: _, [], _ :: _, _ => by
    right
    rfl
  | c :: cs, d :: ds, e :: es, h => by
    rw [charListLt] at h
    rw [charListLt, charListLt]
    by_cases hce : c.toNat < e.toNat
    · by_cases hcd : c.toNat < d.toNat
      · left
        rw [if_pos hcd]
      · right
        rw [if_pos (by omega)]
    · rw [if_neg hce] at h
      by_cases hec : e.toNat < c.toNat
      · rw [if_pos hec] at h
        cases h
      · rw [if_neg hec] at h
        by_cases hcd : c.toNat < d.toNat
        · left
          rw [if_pos hcd]
        · by_cases hdc : d.toNat < c.toNat
          · right
            rw [if_pos (by omega)]
          · rcases charListLt_split cs ds es h with hrec | hrec
            · left
              rw [if_neg hcd, if_neg hdc, hrec]
            · right
              rw [if_neg (by omega), if_neg (by omega), hrec]

/-- The session start-time order is total. -/
theorem startLE_total (a b : Session) : startLE a b ∨ startLE b a := by
  rw [startLE, startLE, pyStrLt, pyStrLt]
  cases hab : charListLt b.start_time.data a.start_time.data with
  | false =>
    left
    rfl
  | true =>
    right
    exact charListLt_asymm _ _ hab

/-- The session start-time order is transitive. -/
theorem startLE_trans (a b c : Session) (hab : startLE a b) (hbc : startLE b c) :
    startLE a c := by
  rw [startLE, pyStrLt] at hab hbc ⊢
  cases hca : charListLt c.start_time.data a.start_time.data with
  | false => rfl
  | true =>
    rcases charListLt_split _ b.start_time.data _ hca with hsp | hsp
    · rw [hsp] at hbc
      cases hbc
    · rw [hsp] at hab
      cases hab

/-- The head of a merge-loop output carries the subject, difficulty and
start time of the session the loop was entered with. -/
theorem consolidateLoop_head : ∀ (rest : List Session) (cur : Session) (out : List Session),
    consolidateLoop cur rest = .ok out →
    ∃ c tl, out = c :: tl ∧ c.subject = cur.subject ∧ c.difficulty = cur.difficulty ∧
      c.start_time = cur.start_time := by
  intro rest
  induction rest with
  | nil =>
    intro cur out h
    rw [consolidateLoop] at h
    cases hf : finalizeSession? cur with
    | none => rw [hf] at h; cases h
    | some c =>
      rw [hf] at h
      simp only [Except.ok.injEq] at h
      subst h
      obtain ⟨h1, h2, _, h4, _⟩ := finalizeSession_fields hf
      exact ⟨c, [], rfl, h1, h2, h4⟩
  | cons nxt rest ih =>
    intro cur out h
    rw [consolidateLoop] at h
    by_cases hm : mergeCond cur nxt
    · rw [if_pos hm] at h
      obtain ⟨c, tl, hout, h1, h2, h4⟩ := ih _ _ h
      exact ⟨c, tl, hout, h1, h2, h4⟩
    · rw [if_neg hm] at h
      cases hf : finalizeSession? cur with
      | none => rw [hf] at h; cases h
      | some c =>
        rw [hf] at h
        cases hrec : consolidateLoop nxt rest with
        | error e => rw [hrec] at h; cases h
        | ok out₂ =>
          rw [hrec] at h
          simp only [Except.map, Except.ok.injEq] at h
          subst h
          obtain ⟨h1, h2, _, h4, _⟩ := finalizeSession_fields hf
          exact ⟨c, out₂, rfl, h1, h2, h4⟩

/-- Every session in a merge-loop output is finalised. -/
theorem consolidateLoop_finalized : ∀ (rest : List Session) (cur : Session) (out : List Session),
    consolidateLoop cur rest = .ok out → ∀ s ∈ out, Finalized s := by
  intro rest
  induction rest with
  | nil =>
    intro cur out h s hs
    rw [consolidateLoop] at h
    cases hf : finalizeSession? cur with
    | none => rw [hf] at h; cases h
    | some c =>
      rw [hf] at h
      simp only [Except.ok.injEq] at h
      subst h
      rw [List.mem_singleton] at hs
      subst hs
      exact finalizeSession_finalized hf
  | cons nxt rest ih =>
    intro cur out h s hs
    rw [consolidateLoop] at h
    by_cases hm : mergeCond cur nxt
    · rw [if_pos hm] at h
      exact ih _ _ h s hs
    · rw [if_neg hm] at h
      cases hf : finalizeSession? cur with
      | none => rw [hf] at h; cases h
      | some c =>
        rw [hf] at h
        cases hrec : consolidateLoop nxt rest with
        | error e => rw [hrec] at h; cases h
        | ok out₂ =>
          rw [hrec] at h
          simp only [Except.map, Except.ok.injEq] at h
          subst h
          rcases List.mem_cons.mp hs with hs | hs
          · subst hs
            exact finalizeSession_finalized hf
          · exact ih _ _ hrec s hs

/-- No two adjacent sessions of a merge-loop output satisfy the merge
condition: the loop only stops a group where the condition fails, and the
recorded boundary times are exactly the compared ones. -/
theorem consolidateLoop_chain_notmerge :
    ∀ (rest : List Session) (cur : Session) (out : List Session),
      consolidateLoop cur rest = .ok out →
      List.Chain' (fun a b => ¬ mergeCond a b) out := by
  intro rest
  induction rest with
  | nil =>
    intro cur out h
    rw [consolidateLoop] at h
    cases hf : finalizeSession? cur with
    | none => rw [hf] at h; cases h
    | some c =>
      rw [hf] at h
      simp only [Except.ok.injEq] at h
      subst h
      exact List.chain'_singleton c
  | cons nxt rest ih =>
    intro cur out h
    rw [consolidateLoop] at h
    by_cases hm : mergeCond cur nxt
    · rw [if_pos hm] at h
      exact ih _ _ h
    · rw [if_neg hm] at h
      cases hf : finalizeSession? cur with
      | none => rw [hf] at h; cases h
      | some c =>
        rw [hf] at h
        cases hrec : consolidateLoop nxt rest with
        | error e => rw [hrec] at h; cases h
        | ok out₂ =>
          rw [hrec] at h
          simp only [Except.map, Except.ok.injEq] at h
          subst h
          rw [List.chain'_cons']
          refine ⟨?_, ih _ _ hrec⟩
          intro b hb
          obtain ⟨c₂, tl₂, hout₂, hb1, hb2, hb4⟩ := consolidateLoop_head _ _ _ hrec
          subst hout₂
          simp only [List.head?_cons, Option.mem_def, Option.some_inj] at hb
          subst hb
          intro hmc
          apply hm
          obtain ⟨m1, m2, m3⟩ := hmc
          obtain ⟨f1, f2, _, _, f5⟩ := finalizeSession_fields hf
          refine ⟨?_, ?_, ?_⟩
          · rw [← hb1, m1, f1]
          · rw [← hb2, m2, f2]
          · rw [← hb4, m3, f5]

/-- The merge loop preserves sortedness by start time. -/
theorem consolidateLoop_chain_sorted :
    ∀ (rest : List Session) (cur : Session) (out : List Session),
      List.Chain' startLE (cur :: rest) →
      consolidateLoop cur rest = .ok out →
      List.Chain' startLE out := by
  intro rest
  induction rest with
  | nil =>
    intro cur out _ h
    rw [consolidateLoop] at h
    cases hf : finalizeSession? cur with
    | none => rw [hf] at h; cases h
    | some c =>
      rw [hf] at h
      simp only [Except.ok.injEq] at h
      subst h
      exact List.chain'_singleton c
  | cons nxt rest ih =>
    intro cur out hchain h
    rw [consolidateLoop] at h
    have hcn : startLE cur nxt := (List.chain'_cons.mp hchain).1
    have htail : List.Chain' startLE (nxt :: rest) := (List.chain'_cons.mp hchain).2
    by_cases hm : mergeCond cur nxt
    · rw [if_pos hm] at h
      have hchain₂ : List.Chain' startLE ({ cur with end_time := nxt.end_time } :: rest) := by
        rw [List.chain'_cons']
        refine ⟨?_, htail.tail⟩
        intro b hb
        have hnb : startLE nxt b := by
          rcases List.chain'_cons'.mp htail with ⟨hh, _⟩
          exact hh b hb
        exact startLE_trans _ _ _ hcn hnb
      exact ih _ _ hchain₂ h
    · rw [if_neg hm] at h
      cases hf : finalizeSession? cur with
      | none => rw [hf] at h; cases h
      | some c =>
        rw [hf] at h
        cases hrec : consolidateLoop nxt rest with
        | error e => rw [hrec] at h; cases h
        | ok out₂ =>
          rw [hrec] at h
          simp only [Except.map, Except.ok.injEq] at h
          subst h
          rw [List.chain'_cons']
          refine ⟨?_, ih _ _ htail hrec⟩
          intro b hb
          obtain ⟨c₂, tl₂, hout₂, _, _, hb4⟩ := consolidateLoop_head _ _ _ hrec
          subst hout₂
          simp only [List.head?_cons, Option.mem_def, Option.some_inj] at hb
          subst hb
          obtain ⟨_, _, _, f4, _⟩ := finalizeSession_fields hf
          rw [startLE, pyStrLt, f4, hb4]
          exact hcn

/-- Re-running the merge loop on a finalised list with no mergeable
neighbours returns it unchanged. -/
theorem consolidateLoop_rerun : ∀ (l : List Session) (c : Session),
    (∀ s ∈ c :: l, Finalized s) →
    List.Chain' (fun a b => ¬ mergeCond a b) (c :: l) →
    consolidateLoop c l = .ok (c :: l) := by
  intro l
  induction l with
  | nil =>
    intro c hfin _
    rw [consolidateLoop, finalizeSession_of_finalized (hfin c (List.mem_singleton.mpr rfl))]
  | cons d l ih =>
    intro c hfin hchain
    have hnd : ¬ mergeCond c d := (List.chain'_cons.mp hchain).1
    rw [consolidateLoop, if_neg hnd,
      finalizeSession_of_finalized (hfin c (List.mem_cons_self c _))]
    rw [ih d (fun s hs => hfin s (List.mem_cons_of_mem c hs)) (List.chain'_cons.mp hchain).2]
    rfl

/-- C5: consolidation is idempotent: re-running step 4 on any day list it
produced returns that list unchanged. -/
theorem C5_consolidation_idempotent (L M : List Session)
    (h : consolidateDay L = .ok M) : consolidateDay M = .ok M := by
  rw [consolidateDay] at h
  cases hs : sortByStart L with
  | nil =>
    rw [hs] at h
    simp only [Except.ok.injEq] at h
    subst h
    rfl
  | cons f r =>
    rw [hs] at h
    have hfin := consolidateLoop_finalized _ _ _ h
    have hnm := consolidateLoop_chain_notmerge _ _ _ h
    have hsorted_in : List.Chain' startLE (f :: r) := by
      haveI : IsTotal Session startLE := ⟨startLE_total⟩
      haveI : IsTrans Session startLE := ⟨startLE_trans⟩
      have hsort := List.sorted_insertionSort startLE L
      rw [show List.insertionSort startLE L = sortByStart L from rfl, hs] at hsort
      exact hsort.chain'
    have hsorted_out := consolidateLoop_chain_sorted _ _ _ hsorted_in h
    have hid : sortByStart M = M := by
      haveI : IsTrans Session startLE := ⟨startLE_trans⟩
      apply List.Sorted.insertionSort_eq
      exact List.chain'_iff_pairwise.mp hsorted_out
    rw [consolidateDay, hid]
    cases hM : M with
    | nil => rfl
    | cons c tl =>
      rw [hM] at hfin hnm
      exact consolidateLoop_rerun tl c hfin hnm

/-- Witness for C5: consolidating two contiguous Math sessions yields one
merged session, and consolidating that output again returns it unchanged. -/
theorem C5_witness :
    consolidateDay [⟨"Math", "Hard", 3, "09:00", "10:00", none⟩,
                    ⟨"Math", "Hard", 3, "10:00", "11:00", none⟩] =
      .ok [⟨"Math", "Hard", 3, "09:00", "11:00", some "2.0h"⟩] ∧
    consolidateDay [⟨"Math", "Hard", 3, "09:00", "11:00", some "2.0h"⟩] =
      .ok [⟨"Math", "Hard", 3, "09:00", "11:00", some "2.0h"⟩] := by
  refine ⟨by decide, ?_⟩
  exact C5_consolidation_idempotent
    [⟨"Math", "Hard", 3, "09:00", "10:00", none⟩,
     ⟨"Math", "Hard", 3, "10:00", "11:00", none⟩]
    [⟨"Math", "Hard", 3, "09:00", "11:00", some "2.0h"⟩] (by decide)

/-- C2: for every settings whose active days resolve to the empty list,
`generate_schedule` returns the structured error value
"No study days selected." (a `GenResult.err`, not a fault). -/
theorem C2_empty_days_structured_error (settings : Settings) (subjects : List SubjectInput)
    (h : (resolveConfig settings).studyDays = []) :
    generate_schedule settings subjects = .err "No study days selected." := by
  unfold generate_schedule
  rw [if_pos h]

/-- Witness for C2 at a concrete settings value with one inactive day. -/
theorem C2_witness :
    (resolveConfig ⟨.val 8, some "09:00", [("monday", false)]⟩).studyDays = [] ∧
    generate_schedule ⟨.val 8, some "09:00", [("monday", false)]⟩
      [⟨some "Math", .val 1, some "Hard"⟩] = .err "No study days selected." :=
  ⟨by decide, C2_empty_days_structured_error _ _ (by decide)⟩

/-- C3: on the scenario settings (capacity 2, start 09:00, study days
given under the keys "mon" and "tue") with one Hard 3-hour subject, the
code raises a `KeyError` instead of returning the schedule the claim
describes, because the schedule dict is keyed by full weekday names. -/
theorem C3_scenario_raises_keyerror :
    generate_schedule ⟨.val 2, some "09:00", [("mon", true), ("tue", true)]⟩
      [⟨some "Math", .val 3, some "Hard"⟩] = .fault "KeyError: mon" := by
  decide

/-- C7: `generate_schedule` is a deterministic function of its two
arguments: calls on equal inputs return equal results. -/
theorem C7_deterministic (s₁ s₂ : Settings) (b₁ b₂ : List SubjectInput)
    (hs : s₁ = s₂) (hb : b₁ = b₂) :
    generate_schedule s₁ b₁ = generate_schedule s₂ b₂ := by
  rw [hs, hb]

/-- Witness for C7 at a concrete input pair. -/
theorem C7_witness :
    generate_schedule ⟨.val 2, some "09:00", [("monday", true)]⟩
        [⟨some "Math", .val 1, some "Hard"⟩] =
      generate_schedule ⟨.val 2, some "09:00", [("monday", true)]⟩
        [⟨some "Math", .val 1, some "Hard"⟩] :=
  C7_deterministic _ _ _ _ rfl rfl

/-- C10: a subject entry lacking the `total_hours` key defaults to one
rounded hour and contributes exactly one unit block carrying its name
and difficulty. -/
theorem C10_missing_hours_defaults_one (s : SubjectInput) (h : s.total_hours = .absent) :
    subjectHours? s = some 1 ∧
    blocksOf s = [⟨effName s, effDifficulty s, difficultyPriority (effDifficulty s)⟩] := by
  refine ⟨by simp [subjectHours?, h], ?_⟩
  simp [blocksOf, subjectHours?, h, List.replicate]

/-- Witness for C10 at a concrete subject without hours. -/
theorem C10_witness :
    subjectHours? ⟨some "Math", .absent, some "Hard"⟩ = some 1 ∧
    blocksOf ⟨some "Math", .absent, some "Hard"⟩ = [⟨"Math", "Hard", 3⟩] := by
  have h := C10_missing_hours_defaults_one ⟨some "Math", .absent, some "Hard"⟩ rfl
  refine ⟨h.1, h.2.trans ?_⟩
  decide

/-- C8 counterexample: a subject whose difficulty string is not one of
Hard, Medium or Easy is not skipped: it receives the default priority 2
and is scheduled, contradicting the claim that it contributes no blocks. -/
theorem C8_counterexample :
    blocksOf ⟨some "Math", .val 1, some "Extreme"⟩ = [⟨"Math", "Extreme", 2⟩] ∧
    generate_schedule ⟨.val 8, some "09:00", [("monday", true)]⟩
        [⟨some "Math", .val 1, some "Extreme"⟩] =
      .ok [("monday", [⟨"Math", "Extreme", 2, "09:00", "10:00", some "1.0h"⟩]),
           ("tuesday", []), ("wednesday", []), ("thursday", []), ("friday", []),
           ("saturday", []), ("sunday", [])] := by
  constructor
  · decide
  · decide

/-- C8 as amended: a subject whose `total_hours` is unparsable is skipped
entirely; the schedule is the one computed from the remaining subjects
alone (in particular no fault arises from the skipped entry).  An
unrecognised difficulty string does not cause a skip. -/
theorem C8_amended_junk_hours_skipped (settings : Settings)
    (pre post : List SubjectInput) (s : SubjectInput) (h : s.total_hours = .junk) :
    generate_schedule settings (pre ++ s :: post) = generate_schedule settings (pre ++ post) := by
  have hb : blocksOf s = [] := by simp [blocksOf, subjectHours?, h]
  have hm : mkBlocks (pre ++ s :: post) = mkBlocks (pre ++ post) := by
    simp [mkBlocks, hb]
  unfold generate_schedule
  rw [hm]

/-- Witness for the amended C8 at a concrete subject list. -/
theorem C8_amended_witness :
    generate_schedule ⟨.val 8, some "09:00", [("monday", true)]⟩
        ([⟨some "A", .val 1, some "Hard"⟩] ++ (⟨some "B", .junk, some "Hard"⟩ : SubjectInput) :: []) =
      generate_schedule ⟨.val 8, some "09:00", [("monday", true)]⟩
        ([⟨some "A", .val 1, some "Hard"⟩] ++ []) :=
  C8_amended_junk_hours_skipped _ _ _ _ rfl

/-- C9 counterexample: with hours 1, difficulty Easy and 14 days remaining
the code returns 1/2 (its pre-rounding floor of 1/2 applies), while the
claimed formula yields 1/4, so the claim misses the floor. -/
theorem C9_counterexample :
    recommend_predicted 1 (some "Easy") 14 = 1 / 2 ∧
    claimFormulaC9 1 "Easy" 14 = 1 / 4 ∧ ((1 : ℚ) / 2) ≠ 1 / 4 := by
  have hnorm : difficultyNormalize (some "Easy") = "Easy" := by decide
  have hr1 : pyRound 1 = 1 := by decide
  have h17 : (1 / 7 : ℚ) = mkRat 1 7 := by
    rw [Rat.mkRat_eq_div]; norm_num
  have hr7 : pyRound (mkRat 1 7) = 0 := by decide
  refine ⟨?_, ?_, by norm_num⟩
  · simp only [recommend_predicted, hnorm]
    norm_num [bonus_for_diff]
    rw [hr1]
    norm_num
  · simp only [claimFormulaC9]
    norm_num
    rw [h17, hr7]
    norm_num

/-- Helper: the two sequential clamps of `recommend` agree with the
min/max form used in the amended formula. -/
theorem clamp_eq_min_max (q : ℚ) :
    (if (if q < 1 / 4 then (1 : ℚ) / 4 else q) > 12 then (12 : ℚ)
     else if q < 1 / 4 then (1 : ℚ) / 4 else q) = min 12 (max (1 / 4) q) := by
  rcases lt_or_le q (1 / 4) with h | h
  · rw [if_pos h, if_neg (by norm_num), min_eq_right, max_eq_left h.le]
    rw [max_eq_left h.le]
    norm_num
  · rw [if_neg (not_lt.mpr h), max_eq_right h]
    rcases le_or_lt q 12 with h12 | h12
    · rw [if_neg (not_lt.mpr h12), min_eq_right h12]
    · rw [if_pos h12, min_eq_left h12.le]

/-- C9 as amended: for positive hours, at least one day remaining and a
canonical difficulty string, `recommend` computes exactly the claimed
formula plus a floor of 1/2 on the pre-rounding value in the
plentiful-time branch. -/
theorem C9_amended_formula (hours : ℚ) (days : ℤ) (d : String)
    (hh : 0 < hours) (hd : 1 ≤ days)
    (hdiff : d = "Easy" ∨ d = "Medium" ∨ d = "Hard") :
    recommend_predicted hours (some d) days = amendedFormulaC9 hours d days := by
  have hnorm : difficultyNormalize (some d) = d := by
    rcases hdiff with h | h | h <;> subst h <;> decide
  have hbon : bonus_for_diff d =
      (if d = "Easy" then (0 : ℚ) else if d = "Medium" then 1 else 2) := by
    rcases hdiff with h | h | h <;> subst h <;> norm_num [bonus_for_diff]
  simp only [recommend_predicted, amendedFormulaC9, hnorm, hbon, mul_one_div]
  rw [if_neg (not_le.mpr hh), max_eq_right hd]
  rw [clamp_eq_min_max]

/-- Witness for the amended C9 at the docstring example input. -/
theorem C9_amended_witness :
    (0 : ℚ) < 6 ∧ (1 : ℤ) ≤ 7 ∧
    recommend_predicted 6 (some "Medium") 7 = amendedFormulaC9 6 "Medium" 7 :=
  ⟨by norm_num, by norm_num,
    C9_amended_formula 6 7 "Medium" (by norm_num) (by norm_num) (Or.inr (Or.inl rfl))⟩

/-- C1 counterexample: with a daily capacity of 1.5 hours, one active day
and a 2-hour subject, the returned Monday sessions span 2 hours, strictly
above the capacity (by one half hour, not a rounding epsilon). -/
theorem C1_counterexample :
    generate_schedule ⟨.val (mkRat 3 2), some "09:00", [("monday", true)]⟩
        [⟨some "Math", .val 2, some "Hard"⟩] =
      .ok [("monday", [⟨"Math", "Hard", 3, "09:00", "11:00", some "2.0h"⟩]),
           ("tuesday", []), ("wednesday", []), ("thursday", []), ("friday", []),
           ("saturday", []), ("sunday", [])] ∧
    listHours [⟨"Math", "Hard", 3, "09:00", "11:00", some "2.0h"⟩] = 2 ∧
    (resolveConfig ⟨.val (mkRat 3 2), some "09:00", [("monday", true)]⟩).cap = mkRat 3 2 ∧
    ¬ ((2 : ℚ) ≤ mkRat 3 2) := by
  refine ⟨by decide, by decide, by decide, by decide⟩

/-- C4 counterexample: a subject with negative hours receives zero
scheduled hours, which exceeds its rounded `total_hours` of minus three,
so the per-subject bound fails without a non-negativity restriction. -/
theorem C4_counterexample :
    generate_schedule ⟨.val 8, some "09:00", [("monday", true)]⟩
        [⟨some "Math", .val (-3), some "Easy"⟩] =
      .ok [("monday", []), ("tuesday", []), ("wednesday", []), ("thursday", []),
           ("friday", []), ("saturday", []), ("sunday", [])] ∧
    subjectHours? ⟨some "Math", .val (-3), some "Easy"⟩ = some (-3) ∧
    totalSubjHours "Math"
      [("monday", []), ("tuesday", []), ("wednesday", []), ("thursday", []),
       ("friday", []), ("saturday", []), ("sunday", [])] = 0 ∧
    ¬ ((0 : ℤ) ≤ -3) := by
  refine ⟨by decide, by decide, by decide, by norm_num⟩

end StudyPlanner

